import Mathlib

/-!
Verification development for the koishi-plugin-menu command tree extractor
(`src/extract.ts`), the cache key generator (`src/unnamed/part_005`,
`FileStore.generateCacheKey` / `hashCommands`), and the file-backed cache
store (`src/cache.ts` `Cache.safeWrite` and friends, `src/utils.ts`
`FileStore.saveCache` / `getCache` / `load`).

Modelling conventions, used consistently below:
* JavaScript objects with a known field set are Lean structures whose fields
  are `Option`-typed when the source distinguishes a missing property from a
  present one (`||`- and spread-semantics are then modelled with `getD` and
  `<|>` respectively); assoc lists model objects iterated with
  `Object.entries` (insertion order).
* `session.text(path)` (the i18n lookup, always with an `['', …]` fallback)
  is modelled as a total function `Session.textOf : String → String`;
  `session.resolve` resolves computed config values and is the identity on
  the plain values stored in this model.
* A command's `ctx.filter(session)` visibility verdict is the per-node
  boolean `NodeC.visible` (the predicate is opaque to the extractor).
* The custom usage producer `command._usage` is modelled by its behaviour at
  the ambient session: a plain string, a function returning a string, or a
  function that throws (`UsageSrc.fnErr`).
* `-1/0/1` comparators passed to the (stable) JS `Array.prototype.sort` are
  modelled by `List.insertionSort` with the relation `comparator a b ≤ 0`,
  which is stable and yields the same result as any stable sort.
-/

namespace Menu

/-! ### String utilities

`localeCompare` comparators, `trim`, `split('\n')`, `substring` and
character-class `replace` are modelled by kernel-computable functions over
the character list of a string (`localeCompare` as code-point lexicographic
comparison: a deterministic total preorder, which is all the verified
properties depend on). -/

/-- Lexicographic `≤` on code points. -/
def clLe : List Char → List Char → Bool
  | [], _ => true
  | _ :: _, [] => false
  | a :: as, b :: bs =>
    if a.toNat < b.toNat then true
    else if b.toNat < a.toNat then false
    else clLe as bs

/-- Models `a.localeCompare(b) ≤ 0` in this model. -/
def strLe (a b : String) : Bool := clLe a.toList b.toList

/-- Models `a.localeCompare(b) < 0` in this model. -/
def strLt (a b : String) : Bool := !(strLe b a)

theorem clLe_total : ∀ a b : List Char, clLe a b = true ∨ clLe b a = true := by
  intro a
  induction a with
  | nil => intro b; exact Or.inl rfl
  | cons x xs ih =>
    intro b
    cases b with
    | nil => exact Or.inr rfl
    | cons y ys =>
      by_cases h1 : x.toNat < y.toNat
      · left; simp [clLe, h1]
      · by_cases h2 : y.toNat < x.toNat
        · right; simp [clLe, h2]
        · rcases ih ys with h | h
          · left; simp [clLe, h1, h2, h]
          · right; simp [clLe, h1, h2, h]

theorem clLe_trans : ∀ a b c : List Char,
    clLe a b = true → clLe b c = true → clLe a c = true := by
  intro a
  induction a with
  | nil => intro b c _ _; rfl
  | cons x xs ih =>
    intro b c hab hbc
    cases b with
    | nil => simp [clLe] at hab
    | cons y ys =>
      cases c with
      | nil => simp [clLe] at hbc
      | cons z zs =>
        simp only [clLe] at hab hbc ⊢
        by_cases hxy : x.toNat < y.toNat
        · by_cases hyz : y.toNat < z.toNat
          · have : x.toNat < z.toNat := hxy.trans hyz
            simp [this]
          · by_cases hzy : z.toNat < y.toNat
            · simp [hyz, hzy] at hbc
            · have hyez : y.toNat = z.toNat := le_antisymm (not_lt.mp hzy) (not_lt.mp hyz)
              have : x.toNat < z.toNat := hyez ▸ hxy
              simp [this]
        · by_cases hyx : y.toNat < x.toNat
          · simp [hxy, hyx] at hab
          · have hxey : x.toNat = y.toNat := le_antisymm (not_lt.mp hyx) (not_lt.mp hxy)
            rw [if_neg hxy, if_neg hyx] at hab
            by_cases hyz : y.toNat < z.toNat
            · have : x.toNat < z.toNat := hxey ▸ hyz
              simp [this]
            · by_cases hzy : z.toNat < y.toNat
              · simp [hyz, hzy] at hbc
              · rw [if_neg hyz, if_neg hzy] at hbc
                have hxz : ¬ x.toNat < z.toNat := by omega
                have hzx : ¬ z.toNat < x.toNat := by omega
                rw [if_neg hxz, if_neg hzx]
                exact ih ys zs hab hbc

theorem clLe_antisymm : ∀ a b : List Char,
    clLe a b = true → clLe b a = true → a = b := by
  intro a
  induction a with
  | nil =>
    intro b _ hba
    cases b with
    | nil => rfl
    | cons y ys => simp [clLe] at hba
  | cons x xs ih =>
    intro b hab hba
    cases b with
    | nil => simp [clLe] at hab
    | cons y ys =>
      simp only [clLe] at hab hba
      by_cases hxy : x.toNat < y.toNat
      · have : ¬ y.toNat < x.toNat := by omega
        simp [hxy, this] at hba
      · by_cases hyx : y.toNat < x.toNat
        · simp [hxy, hyx] at hab
        · rw [if_neg hxy, if_neg hyx] at hab
          rw [if_neg hyx, if_neg hxy] at hba
          have hv : x = y := Char.ext (by
            have : x.toNat = y.toNat := by omega
            exact UInt32.toNat.inj this)
          rw [hv, ih ys hab hba]

theorem strLe_total (a b : String) : strLe a b = true ∨ strLe b a = true :=
  clLe_total _ _

theorem strLe_trans {a b c : String} (h1 : strLe a b = true) (h2 : strLe b c = true) :
    strLe a c = true :=
  clLe_trans _ _ _ h1 h2

theorem strLe_antisymm {a b : String} (h1 : strLe a b = true) (h2 : strLe b a = true) :
    a = b := by
  have hdata : a.data = b.data := clLe_antisymm _ _ h1 h2
  cases a; cases b
  simp_all

theorem strLt_of_le_of_ne {a b : String} (h1 : strLe a b = true) (h2 : a ≠ b) :
    strLt a b = true := by
  rw [strLt, Bool.not_eq_true']
  by_contra h
  rw [Bool.not_eq_false] at h
  exact h2 (strLe_antisymm h1 h)

theorem strLt_asymm {a b : String} (h1 : strLt a b = true) (h2 : strLt b a = true) :
    False := by
  rw [strLt, Bool.not_eq_true'] at h1 h2
  rcases strLe_total a b with h | h
  · rw [h2] at h; cases h
  · rw [h1] at h; cases h

/-- Models `trim()` as dropping leading and trailing whitespace characters. -/
def trimStr (s : String) : String :=
  String.mk (((s.toList.dropWhile Char.isWhitespace).reverse.dropWhile
    Char.isWhitespace).reverse)

/-- Models `split('\n')` (empty string yields a single empty piece). -/
def splitNlAux : List Char → List Char → List String
  | [], acc => [String.mk acc.reverse]
  | c :: rest, acc =>
    if c = '\n' then String.mk acc.reverse :: splitNlAux rest []
    else splitNlAux rest (c :: acc)

/-- Models `s.split('\n')`. -/
def splitNl (s : String) : List String := splitNlAux s.toList []

/-- Models `s.substring(0, n)`. -/
def strTake (s : String) (n : Nat) : String := String.mk (s.toList.take n)

/-! ### Override text layer (`texts` of a command snapshot) -/

/-- A value of the per-path text override: a plain string or a
locale → string dictionary (`src/extract.ts` `getEffectiveText`). -/
inductive TVal where
  | str (s : String)
  | dict (d : List (String × String))
deriving Repr, DecidableEq

/-- The `texts` object of an override snapshot: top-level path entries
(`description`, `usage`, …) plus the nested `texts.options` map. -/
structure TextsObj where
  entries : List (String × TVal)
  optionTexts : Option (List (String × TVal)) := none
deriving Repr, DecidableEq

/-- JS object property lookup on an assoc list. -/
def jlookup (m : List (String × α)) (k : String) : Option α :=
  (m.find? (fun p => p.1 = k)).map (·.2)

/-- JS truthiness of a text-override value (`''` is falsy, objects truthy). -/
def truthyTV : TVal → Bool
  | .str s => s ≠ ""
  | .dict _ => true

/-- First non-empty string of a candidate list, else the fallback: models a
chain `a || b || c || fallback` of string expressions. -/
def firstNonEmpty (xs : List String) (fb : String) : String :=
  match xs.find? (fun s => s ≠ "") with
  | some s => s
  | none => fb

/-- Session data consumed by the extractor: `session.user.authority || 0`,
`session.locales`, and the i18n text lookup (see module conventions). -/
structure Session where
  authority : Nat
  locales : List String
  textOf : String → String

/-- Models `Extract.getEffectiveText` (src/extract.ts:217-227): prefer the override
entry at `path`; a string is used verbatim (if non-empty), a dictionary is
consulted at the primary locale, then `zh-CN`, then `en-US`, then its first
string value, before falling back. -/
def getEffectiveText (texts : Option (List (String × TVal))) (path : String)
    (sess : Session) (fb : String) : String :=
  match texts.bind (fun m => jlookup m path) with
  | none => fb
  | some v =>
    if truthyTV v then
      match v with
      | .str s => s
      | .dict d =>
        let l0 := (sess.locales.head?).getD ""
        let loc := if l0 = "" then "zh-CN" else l0
        firstNonEmpty [(jlookup d loc).getD "", (jlookup d "zh-CN").getD "",
          (jlookup d "en-US").getD "", ((d.head?).map (·.2)).getD ""] fb
    else fb

/-! ### Command config, options and aliases -/

/-- The fields of `command.config` the extractor reads; `Option` registers
property presence (spread-merge semantics). -/
structure CConfig where
  authority : Option Nat := none
  group : Option String := none
  hidden : Option Bool := none
deriving Repr, DecidableEq

/-- Models `{ ...a, ...b }` on two config objects: a present `b`-field wins. -/
def mergeCConfig (a b : CConfig) : CConfig :=
  ⟨b.authority <|> a.authority, b.group <|> a.group, b.hidden <|> a.hidden⟩

/-- The flat fields of an option object read by `addOption`
(src/extract.ts:315-325). -/
structure OptFields where
  authority : Option Nat := none
  syntaxStr : Option String := none
  hidden : Option Bool := none
  descPath : Option String := none
deriving Repr, DecidableEq

/-- An option object as iterated by `buildOptions`: its flat fields, its
`name` property, whether it has an own `value` property, and its `variants`
map (variant values may be `null`, hence `Option`). -/
structure JOptP where
  fields : OptFields := {}
  nameP : Option String := none
  hasValue : Bool := false
  variants : Option (List (String × Option OptFields)) := none
deriving Repr, DecidableEq

/-- Field-level `{ ...a, ...b }` on the flat option fields. -/
def spreadOptFields (a b : OptFields) : OptFields :=
  ⟨b.authority <|> a.authority, b.syntaxStr <|> a.syntaxStr,
   b.hidden <|> a.hidden, b.descPath <|> a.descPath⟩

/-- Models `{ ...a, ...b }` on whole option objects (`'value' in` survives from
either side; `variants` is replaced shallowly). -/
def spreadJOpt (a b : JOptP) : JOptP :=
  ⟨spreadOptFields a.fields b.fields, b.nameP <|> a.nameP,
   a.hasValue || b.hasValue, b.variants <|> a.variants⟩

/-- JS object key assignment `m[k] = v`, keeping key order for existing keys
and appending new ones. -/
def setKey (m : List (String × α)) (k : String) (v : α) : List (String × α) :=
  if m.any (fun p => p.1 = k) then
    m.map (fun p => if p.1 = k then (k, v) else p)
  else m ++ [(k, v)]

/-- The option merge of `getEffectiveData` (src/extract.ts:187-192): start
from a copy of `snapshot.initial.options`; an object-valued override is
spread over the current entry, a falsy override replaces it. -/
def mergeOptions (ini ovr : List (String × Option JOptP)) :
    List (String × Option JOptP) :=
  ovr.foldl (fun acc kv =>
    let newV : Option JOptP :=
      match kv.2 with
      | none => none
      | some o =>
        let base := match jlookup acc kv.1 with
          | some (some j) => j
          | _ => {}
        some (spreadJOpt base o)
    setKey acc kv.1 newV) ini

/-- Per-alias override entry: only its `filter` flag is consulted
(`filter !== false` means the alias is enabled). -/
structure AliasConf where
  filterFalse : Bool := false
deriving Repr, DecidableEq

/-! ### Override snapshots and the registry -/

/-- One layer (`initial` or `override`) of a command snapshot. -/
structure SnapPart where
  config : Option CConfig := none
  options : Option (List (String × Option JOptP)) := none
  aliases : Option (List (String × AliasConf)) := none
  texts : Option TextsObj := none
deriving Repr, DecidableEq

/-- A well-formed snapshot, with both layers present (the shape the commands
plugin actually stores). -/
structure Snapshot where
  initial : SnapPart
  override : SnapPart
deriving Repr, DecidableEq

/-- A raw snapshot value as found via `ctx.get('commands')?.snapshots?.[name]`:
either layer may be absent (malformed input). -/
structure RawSnapshot where
  initial : Option SnapPart := none
  override : Option SnapPart := none
deriving Repr, DecidableEq

/-- Behaviour of `command._usage` at the ambient session: a plain string, a
producer that returns a string, or a producer that throws. -/
inductive UsageSrc where
  | str (s : String)
  | fnOk (s : String)
  | fnErr
deriving Repr, DecidableEq

/-- A registry command node: name, `parent` presence, the `ctx.filter`
verdict, static `config` / `_options` / `_aliases`, `_usage`, `_examples`,
and children. -/
inductive NodeC where
  | mk (name : String) (hasParent : Bool) (visible : Bool) (config : CConfig)
      (opts : List (String × Option JOptP)) (aliases : List (String × AliasConf))
      (usageSrc : Option UsageSrc) (examplesStatic : List String)
      (children : List NodeC)
deriving Repr

def NodeC.name : NodeC → String
  | .mk n _ _ _ _ _ _ _ _ => n

def NodeC.hasParent : NodeC → Bool
  | .mk _ hp _ _ _ _ _ _ _ => hp

def NodeC.visible : NodeC → Bool
  | .mk _ _ v _ _ _ _ _ _ => v

def NodeC.config : NodeC → CConfig
  | .mk _ _ _ c _ _ _ _ _ => c

def NodeC.opts : NodeC → List (String × Option JOptP)
  | .mk _ _ _ _ o _ _ _ _ => o

def NodeC.aliases : NodeC → List (String × AliasConf)
  | .mk _ _ _ _ _ a _ _ _ => a

def NodeC.usageSrc : NodeC → Option UsageSrc
  | .mk _ _ _ _ _ _ u _ _ => u

def NodeC.examplesStatic : NodeC → List String
  | .mk _ _ _ _ _ _ _ e _ => e

def NodeC.children : NodeC → List NodeC
  | .mk _ _ _ _ _ _ _ _ ch => ch

/-- The command registry: `ctx.$commander._commandList` plus the commands
plugin's snapshot store. -/
structure Reg where
  commandList : List NodeC
  snapshots : String → Option Snapshot

/-- Result shape of `getEffectiveData`. -/
structure EffData where
  config : CConfig
  options : List (String × Option JOptP)
  aliases : List (String × AliasConf)
  texts : Option TextsObj
deriving Repr, DecidableEq

/-- Models `Extract.getEffectiveData` (src/extract.ts:178-198) over a well-formed
snapshot store: no snapshot returns the static definition with `texts = null`;
otherwise configs are flat-merged, options merged per `mergeOptions`, aliases
replaced wholesale when the override carries them, and `texts` taken from the
override. -/
def getEffectiveData (reg : Reg) (n : NodeC) : EffData :=
  match reg.snapshots n.name with
  | none => ⟨n.config, n.opts, n.aliases, none⟩
  | some s =>
    ⟨mergeCConfig (s.initial.config.getD {}) (s.override.config.getD {}),
     mergeOptions (s.initial.options.getD []) (s.override.options.getD []),
     (s.override.aliases).getD n.aliases,
     s.override.texts⟩

/-- Models `Extract.getEffectiveData` over a raw snapshot store, with the exception
behaviour made explicit: `snapshot.initial.options` (line 187) throws when
`initial` is absent, `snapshot.override.options` (line 188) throws when
`override` is absent. -/
def getEffectiveDataE (snaps : String → Option RawSnapshot) (n : NodeC) :
    Except Unit EffData :=
  match snaps n.name with
  | none => .ok ⟨n.config, n.opts, n.aliases, none⟩
  | some s =>
    match s.initial with
    | none => .error ()
    | some ini =>
      match s.override with
      | none => .error ()
      | some ov =>
        .ok ⟨mergeCConfig (ini.config.getD {}) (ov.config.getD {}),
          mergeOptions (ini.options.getD []) (ov.options.getD []),
          ov.aliases.getD n.aliases, ov.texts⟩

/-- The raw image of a well-formed snapshot store. -/
def rawOf (s : String → Option Snapshot) : String → Option RawSnapshot :=
  fun k => (s k).map (fun v => ⟨some v.initial, some v.override⟩)

/-- On well-formed stores the raw resolver never throws and agrees with
`getEffectiveData`. -/
theorem getEffectiveDataE_rawOf (reg : Reg) (n : NodeC) :
    getEffectiveDataE (rawOf reg.snapshots) n = .ok (getEffectiveData reg n) := by
  unfold getEffectiveDataE rawOf getEffectiveData
  cases reg.snapshots n.name <;> rfl

/-- Models `Extract.getAuthority` (src/extract.ts:205-207):
`getEffectiveData(command).config?.authority || command.config?.authority || 0`. -/
def getAuthority (reg : Reg) (n : NodeC) : Nat :=
  let e := (getEffectiveData reg n).config.authority.getD 0
  if e ≠ 0 then e else n.config.authority.getD 0

/-! ### Name entries (`processNameConfig`) -/

/-- A `NameItem` of the extractor output (`isDefault` is always written by
the code paths modelled here). -/
structure NameItem where
  name : String
  enabled : Bool
  isDefault : Bool
deriving Repr, DecidableEq

/-- The `aliasEntries.forEach` loop of `processNameConfig`
(src/extract.ts:160-165): an alias is enabled unless its override `filter`
is `false`; the first enabled alias is the default. -/
def mkNameItems : List (String × AliasConf) → Bool → List NameItem
  | [], _ => []
  | (a, c) :: rest, hasDef =>
    let en := !c.filterFalse
    let isDef := !hasDef && en
    ⟨a, en, isDef⟩ :: mkNameItems rest (hasDef || isDef)

/-- Models `comparator(a, b) ≤ 0` for the sort of `processNameConfig`
(src/extract.ts:166-170): a default entry sorts first, everything else by
`localeCompare` on the name. -/
def niLe (a b : NameItem) : Prop :=
  a.isDefault = true ∨ (b.isDefault = false ∧ strLe a.name b.name = true)

instance : DecidableRel niLe := fun a b => by unfold niLe; infer_instance

instance : IsTotal NameItem niLe :=
  ⟨fun a b => by
    by_cases ha : a.isDefault = true
    · exact Or.inl (Or.inl ha)
    · by_cases hb : b.isDefault = true
      · exact Or.inr (Or.inl hb)
      · rcases strLe_total a.name b.name with h | h
        · exact Or.inl (Or.inr ⟨Bool.eq_false_iff.mpr (by simpa using hb), h⟩)
        · exact Or.inr (Or.inr ⟨Bool.eq_false_iff.mpr (by simpa using ha), h⟩)⟩

instance : IsTrans NameItem niLe :=
  ⟨fun a b c hab hbc => by
    rcases hab with ha | ⟨hb, hab⟩
    · exact Or.inl ha
    · rcases hbc with hb' | ⟨hc, hbc⟩
      · exact absurd hb' (by simp [hb])
      · exact Or.inr ⟨hc, strLe_trans hab hbc⟩⟩

/-- Models `Extract.processNameConfig` (src/extract.ts:152-171): with no alias
entries, a single enabled default entry bearing `command.name`; otherwise
the constructed entries, stably sorted with the default-first comparator. -/
def processNameConfig (reg : Reg) (n : NodeC) : List NameItem :=
  let aliases := (getEffectiveData reg n).aliases
  if aliases.isEmpty then [⟨n.name, true, true⟩]
  else List.insertionSort niLe (mkNameItems aliases false)

/-! ### Text helpers (`cleanText`, usage, examples) -/

/-- One element of a structured i18n result: a plain string or an element
node carrying `attrs.content`. -/
inductive RNode where
  | str (s : String)
  | elemNode (content : Option String)
deriving Repr, DecidableEq

/-- A value handled by `cleanText`: a string, an array of nodes, or any
other value. -/
inductive RText where
  | str (s : String)
  | arr (xs : List RNode)
  | other
deriving Repr, DecidableEq

/-- Models `Extract.cleanText` (src/extract.ts:262-266): strings pass through;
arrays are flattened to the non-empty item contents joined by spaces and
trimmed; anything else becomes the empty string. -/
def cleanText : RText → String
  | .str s => s
  | .arr xs =>
    trimStr (String.intercalate " "
      ((xs.map (fun i => match i with
          | .str s => s
          | .elemNode c => c.getD "")).filter (fun s => s ≠ "")))
  | .other => ""

/-- The i18n path `commands.<name>.usage`. -/
def usagePathOf (name : String) : String := "commands." ++ name ++ ".usage"

/-- Models `Extract.getUsageText` (src/extract.ts:276-286): a non-empty `usage`
text override wins; else a string `_usage` is used verbatim, a producer is
invoked — with a `catch` that falls back to the locale text when it throws —
and without `_usage` the locale text is used. -/
def getUsageText (n : NodeC) (sess : Session) (texts : Option TextsObj) : String :=
  let ov := getEffectiveText (texts.map (·.entries)) "usage" sess ""
  if ov ≠ "" then ov
  else
    match n.usageSrc with
    | some (.str s) => s
    | some (.fnOk s) => s
    | some .fnErr => sess.textOf (usagePathOf n.name)
    | none => sess.textOf (usagePathOf n.name)

/-- Models `Extract.getExamplesText` (src/extract.ts:295-299): a non-empty static
`_examples` list is joined with blank lines; otherwise the locale text is
split into its non-blank lines and re-joined with blank lines. -/
def getExamplesText (n : NodeC) (sess : Session) : String :=
  if n.examplesStatic.length ≠ 0 then
    String.intercalate "\n\n" n.examplesStatic
  else
    String.intercalate "\n\n"
      ((splitNl (sess.textOf ("commands." ++ n.name ++ ".examples"))).filter
        (fun line => trimStr line ≠ ""))

/-! ### Options (`buildOptions`) -/

/-- An `Option` entry of the extractor output. -/
structure OptE where
  name : String
  desc : String
  syntaxStr : String
  hidden : Bool
  authority : Nat
deriving Repr, DecidableEq

/-- The description an option resolves to: the option text override at the
final name, falling back to the locale text at `descPath` or the default
option path. -/
def optDescOf (sess : Session) (cmdName : String) (texts : Option TextsObj)
    (o : OptFields) (nm : String) : String :=
  getEffectiveText (texts.bind (·.optionTexts)) nm sess
    (match o.descPath with
     | some p => sess.textOf p
     | none => sess.textOf ("commands." ++ cmdName ++ ".options." ++ nm))

/-- The `addOption` closure of `buildOptions` (src/extract.ts:315-326),
threading the `(options, seenOptions)` accumulator: skip falsy options,
empty names, authority failures and already-seen names; push only when the
resolved description or the syntax is non-empty. -/
def addOption (sess : Session) (userAuth : Nat) (cmdName : String)
    (texts : Option TextsObj) (st : List OptE × List String)
    (of? : Option OptFields) (nm : String) : List OptE × List String :=
  match of? with
  | none => st
  | some o =>
    if nm = "" ∨ userAuth < o.authority.getD 0 ∨ nm ∈ st.2 then st
    else
      let desc := optDescOf sess cmdName texts o nm
      if desc ≠ "" ∨ o.syntaxStr.getD "" ≠ "" then
        (st.1 ++ [⟨nm, desc, o.syntaxStr.getD "", o.hidden.getD false, o.authority.getD 0⟩],
         st.2 ++ [nm])
      else st

/-- The base name an option entry is registered under: `opt.name || key`. -/
def optBase (opt : JOptP) (key : String) : String :=
  match opt.nameP with
  | some s => if s = "" then key else s
  | none => key

/-- Models `Extract.buildOptions` (src/extract.ts:311-335): for each entry, an
option without an own `value` property is added under `opt.name || key`, and
each variant is added under `base.variantKey`. -/
def buildOptions (effOpts : List (String × Option JOptP)) (sess : Session)
    (userAuth : Nat) (cmdName : String) (texts : Option TextsObj) : List OptE :=
  (effOpts.foldl (fun st kv =>
    match kv.2 with
    | none => st
    | some opt =>
      let base := optBase opt kv.1
      let st1 := if opt.hasValue then st
        else addOption sess userAuth cmdName texts st (some opt.fields) base
      match opt.variants with
      | none => st1
      | some vs =>
        vs.foldl (fun st2 v => addOption sess userAuth cmdName texts st2 v.2
          (base ++ "." ++ v.1)) st1)
    ([], [])).1

/-! ### The command tree (`build`, `buildSubCommands`, `all`) -/

/-- The extractor's output `Command` entity. -/
inductive Command where
  | mk (group : String) (name : List NameItem) (hidden : Bool) (authority : Nat)
      (desc : String) (usage : String) (examples : String) (options : List OptE)
      (subs : Option (List Command))
deriving Repr

def Command.group : Command → String
  | .mk g _ _ _ _ _ _ _ _ => g

def Command.name : Command → List NameItem
  | .mk _ n _ _ _ _ _ _ _ => n

def Command.hidden : Command → Bool
  | .mk _ _ h _ _ _ _ _ _ => h

def Command.authority : Command → Nat
  | .mk _ _ _ a _ _ _ _ _ => a

def Command.desc : Command → String
  | .mk _ _ _ _ d _ _ _ _ => d

def Command.usage : Command → String
  | .mk _ _ _ _ _ u _ _ _ => u

def Command.examples : Command → String
  | .mk _ _ _ _ _ _ e _ _ => e

def Command.options : Command → List OptE
  | .mk _ _ _ _ _ _ _ o _ => o

def Command.subs : Command → Option (List Command)
  | .mk _ _ _ _ _ _ _ _ s => s

mutual

/-- Models `Extract.build` (src/extract.ts:236-255): resolve the effective data,
re-check the caller's authority against `config?.authority || 0`, and
assemble the `Command` (group with the `'其它'` default, name entries,
hidden flag, texts, options and subcommands). -/
def buildNode (sess : Session) (reg : Reg) : NodeC → Option Command
  | .mk nm hp vis cfg opts als us exs ch =>
    let node : NodeC := .mk nm hp vis cfg opts als us exs ch
    let eff := getEffectiveData reg node
    let cmdAuth := eff.config.authority.getD 0
    if sess.authority < cmdAuth then none
    else
      let g := eff.config.group.getD ""
      let subsL := if ch.isEmpty then [] else buildKids sess reg [] ch
      some (.mk (if g = "" then "其它" else g) (processNameConfig reg node)
        (eff.config.hidden.getD false) cmdAuth
        (getEffectiveText (eff.texts.map (·.entries)) "description" sess
          (cleanText (.str (sess.textOf ("commands." ++ nm ++ ".description")))))
        (cleanText (.str (getUsageText node sess eff.texts)))
        (getExamplesText node sess)
        (buildOptions eff.options sess sess.authority nm eff.texts)
        (if subsL.isEmpty then none else some subsL))

/-- Models `Extract.buildSubCommands` (src/extract.ts:344-359) over a child list:
children are deduplicated by name (first occurrence wins, empty names
dropped) before the visibility and authority filters; surviving children
are built and `null` results dropped. -/
def buildKids (sess : Session) (reg : Reg) (seen : List String) :
    List NodeC → List Command
  | [] => []
  | c :: rest =>
    if c.name = "" ∨ c.name ∈ seen then buildKids sess reg seen rest
    else
      let tail := buildKids sess reg (c.name :: seen) rest
      if c.visible = true ∧ sess.authority ≥ getAuthority reg c then
        match buildNode sess reg c with
        | some cmd => cmd :: tail
        | none => tail
      else tail

end

/-- Models `Extract.setLocale` (src/extract.ts:123-125): a non-empty locale is
prepended to the session's locale list. -/
def sessLoc (sess : Session) (locale : String) : Session :=
  if locale = "" then sess else { sess with locales := locale :: sess.locales }

/-- Sort key of the root-level sort of `all`: `a.name[0].name` (the access
is total by the C10 invariant; the model reads a dummy on an empty list). -/
def headNameOf (c : Command) : String := ((c.name).head?.getD ⟨"", true, false⟩).name

/-- Models `comparator(a, b) ≤ 0` for the root-level sort of `all`
(src/extract.ts:68). -/
def cmdLe (a b : Command) : Prop := strLe (headNameOf a) (headNameOf b) = true

instance : DecidableRel cmdLe := fun a b => by unfold cmdLe; infer_instance

instance : IsTotal Command cmdLe := ⟨fun _ _ => strLe_total _ _⟩

instance : IsTrans Command cmdLe := ⟨fun _ _ _ => strLe_trans⟩

/-- The root filter of `all` (src/extract.ts:65-66): parentless, visible to
the session, and within the caller's authority. -/
def rootOkB (sess : Session) (reg : Reg) (c : NodeC) : Bool :=
  !c.hasParent && c.visible && decide (sess.authority ≥ getAuthority reg c)

/-- Models `Extract.all` (src/extract.ts:61-69): apply the locale, filter the
command list to admissible roots, build each, drop `null` results and sort
by the default name. -/
def allCmds (sess : Session) (reg : Reg) (locale : String) : List Command :=
  let s := sessLoc sess locale
  List.insertionSort cmdLe
    ((reg.commandList.filter (rootOkB s reg)).filterMap (buildNode s reg))

/-! ### Instrumentation: which registry nodes the builder touches

`invokedNode n` lists the node occurrences on which `build` is invoked when
the recursion is entered at `n`; it mirrors `buildNode`/`buildKids` exactly
(children are only visited when the authority re-check of `build` passes,
and a child is only entered when it survives dedup, visibility and the
`getAuthority` filter). -/

mutual

def invokedNode (sess : Session) (reg : Reg) : NodeC → List NodeC
  | .mk nm hp vis cfg opts als us exs ch =>
    let node : NodeC := .mk nm hp vis cfg opts als us exs ch
    node ::
      (if sess.authority < (getEffectiveData reg node).config.authority.getD 0 then []
       else invokedKids sess reg [] ch)

def invokedKids (sess : Session) (reg : Reg) (seen : List String) :
    List NodeC → List NodeC
  | [] => []
  | c :: rest =>
    if c.name = "" ∨ c.name ∈ seen then invokedKids sess reg seen rest
    else
      (if c.visible = true ∧ sess.authority ≥ getAuthority reg c then
        invokedNode sess reg c
       else []) ++ invokedKids sess reg (c.name :: seen) rest

end

/-- All node occurrences `all` can invoke `build` on. -/
def invokedAll (sess : Session) (reg : Reg) (locale : String) : List NodeC :=
  let s := sessLoc sess locale
  (reg.commandList.filter (rootOkB s reg)).flatMap (invokedNode s reg)

/-! ### Registry reachability by name -/

mutual

/-- Whether a node named `dName` can be reached from `n` through `children`
links without entering a node named `cName`. -/
def reachAvoidName (cName dName : String) : NodeC → Bool
  | .mk nm _ _ _ _ _ _ _ ch =>
    if nm = cName then false
    else (nm = dName) || reachAvoidNameL cName dName ch

def reachAvoidNameL (cName dName : String) : List NodeC → Bool
  | [] => false
  | c :: cs => reachAvoidName cName dName c || reachAvoidNameL cName dName cs

end

mutual

/-- All node occurrences in the subtree rooted at `n` (including `n`). -/
def subtreeNodes : NodeC → List NodeC
  | .mk nm hp vis cfg opts als us exs ch =>
    .mk nm hp vis cfg opts als us exs ch :: subtreeNodesL ch

def subtreeNodesL : List NodeC → List NodeC
  | [] => []
  | c :: cs => subtreeNodes c ++ subtreeNodesL cs

end

/-- All node occurrences of the registry. -/
def allRegNodes (reg : Reg) : List NodeC := subtreeNodesL reg.commandList

mutual

/-- Node size, for strong induction over the tree. -/
def sizeN : NodeC → Nat
  | .mk _ _ _ _ _ _ _ _ ch => 1 + sizeL ch

def sizeL : List NodeC → Nat
  | [] => 0
  | c :: cs => sizeN c + sizeL cs

end

/-! ### Flattening the output forest -/

mutual

/-- A command together with all commands of its `subs` forest. -/
def flattenCmd : Command → List Command
  | .mk g nm h a d u e o s =>
    .mk g nm h a d u e o s :: (match s with | none => [] | some l => flattenCmds l)

def flattenCmds : List Command → List Command
  | [] => []
  | c :: cs => flattenCmd c ++ flattenCmds cs

end

/-! ### Cache key generation (`FileStore.generateCacheKey` / `hashCommands`,
src/unnamed/part_005:121-197)

The md5 digest is a pure function of the byte stream fed to the incremental
hasher, so the key is determined by the prefix together with the ordered
list of `hasher.update` arguments. The model keeps that update stream as an
explicit list (`HashItem`) and passes the digest as a function parameter:
equal streams yield equal keys for every digest, and the refutation below
depends only on the prefix (the digest suffix never changes the first
character of the key, so distinct prefixes give distinct keys for every
digest). -/

/-- An alias entry of a command as fed to `hashCommands`: either a plain
string or an `{ name, enabled, isDefault }` object. -/
inductive KAliasItem where
  | str (s : String)
  | obj (name : String) (enabled : Bool) (isDefault : Bool)
deriving Repr, DecidableEq

/-- A command as consumed by the cache key generator. `optionsLen` and
`subsLen` model `cmd.options?.length || 0` and `cmd.subs?.length || 0` (only
the lengths are consulted); `aliases = none` models an absent `cmd.aliases`
(for which `[...new Set(cmd.aliases || [])].sort()` yields `[]`). -/
structure KCmd where
  name : String
  aliases : Option (List KAliasItem) := none
  desc : String := ""
  group : String := ""
  hidden : Bool := false
  authority : Nat := 0
  optionsLen : Nat := 0
  subsLen : Nat := 0
deriving Repr, DecidableEq

/-- A normalised alias record inside a command signature. -/
structure SigAlias where
  name : String
  enabled : Bool
  isDefault : Bool
deriving Repr, DecidableEq

/-- The per-alias normalisation of `hashCommands` (part_005:168-173). -/
def toSigAlias : KAliasItem → SigAlias
  | .str s => ⟨s, true, false⟩
  | .obj n e d => ⟨n, e, d⟩

/-- Models `comparator(a, b) ≤ 0` for the alias sort inside a signature. -/
def saLe (a b : SigAlias) : Prop := strLe a.name b.name = true

instance : DecidableRel saLe := fun a b => by unfold saLe; infer_instance

instance : IsTotal SigAlias saLe := ⟨fun _ _ => strLe_total _ _⟩

instance : IsTrans SigAlias saLe := ⟨fun _ _ _ => strLe_trans⟩

/-- The compact per-command signature of `hashCommands` (part_005:176-185). -/
structure KSig where
  name : String
  aliases : List SigAlias
  desc : String
  group : String
  hidden : Bool
  authority : Nat
  optCount : Nat
  subCount : Nat
deriving Repr, DecidableEq

/-- Build a command's signature: normalised sorted aliases, the description
truncated to its first 50 characters, and the remaining key fields. -/
def sigOf (c : KCmd) : KSig :=
  ⟨c.name,
   (match c.aliases with
    | some items => List.insertionSort saLe (items.map toSigAlias)
    | none => []),
   strTake c.desc 50, c.group, c.hidden, c.authority, c.optionsLen, c.subsLen⟩

/-- The `uniqueCommands` map of `hashCommands`: first occurrence per display
name wins, insertion order kept. -/
def dedupSigs : List KCmd → List String → List KSig
  | [], _ => []
  | c :: rest, seen =>
    if c.name ∈ seen then dedupSigs rest seen
    else sigOf c :: dedupSigs rest (c.name :: seen)

/-- Models `comparator(a, b) ≤ 0` for the final signature sort of `hashCommands`. -/
def ksLe (a b : KSig) : Prop := strLe a.name b.name = true

instance : DecidableRel ksLe := fun a b => by unfold ksLe; infer_instance

instance : IsTotal KSig ksLe := ⟨fun _ _ => strLe_total _ _⟩

instance : IsTrans KSig ksLe := ⟨fun _ _ _ => strLe_trans⟩

/-- Models `hashCommands` (part_005:160-197): deduplicate by name, then sort the
signatures by name. -/
def hashSigs (cmds : List KCmd) : List KSig :=
  List.insertionSort ksLe (dedupSigs cmds [])

/-- One `hasher.update` argument. -/
inductive HashItem where
  | tok (s : String)
  | sig (s : KSig)
  | cfgField (field value : String)
deriving Repr, DecidableEq

/-- A render configuration object: fields looked up by name; a value is its
string coercion as interpolated into the `update` template. -/
abbrev KConfig := String → Option String

/-- The whitelisted render-relevant configuration fields
(part_005:138-142). -/
def whitelistFields : List String :=
  ["padding", "radius", "fontSize", "titleSize", "primary", "secondary",
   "bgColor", "textColor", "header", "footer", "glassBlur"]

/-- The configuration contribution to the update stream: whitelisted fields
only, in whitelist order, skipping absent fields (part_005:144-148). -/
def cfgItems (cfg : KConfig) : List HashItem :=
  whitelistFields.filterMap (fun f => (cfg f).map (fun v => .cfgField f v))

/-- Models `name.replace(/[^a-zA-Z0-9\-_\.]/g, '_')`. -/
def sanitizeName (s : String) : String :=
  String.mk (s.toList.map (fun ch =>
    if ch.isAlphanum ∨ ch = '-' ∨ ch = '_' ∨ ch = '.' then ch else '_'))

/-- Models `commands.length === 1 ? commands[0].name.replace(…) : 'menu'`. -/
def keyPreFallback : List KCmd → String
  | [c] => sanitizeName c.name
  | _ => "menu"

/-- The key prefix (part_005:123-124): the sanitised `cmdName` when truthy,
else the single command's sanitised name, else `"menu"`. -/
def keyPre (commands : List KCmd) (cmdName : Option String) : String :=
  let p1 := (cmdName.map sanitizeName).getD ""
  if p1 ≠ "" then p1 else keyPreFallback commands

/-- The optional `commands:<hash>` update (part_005:130-132); a falsy
(empty) token is skipped. -/
def tokItems (commandsHash : Option String) : List HashItem :=
  if (commandsHash.getD "") ≠ "" then [.tok ("commands:" ++ commandsHash.getD "")]
  else []

/-- The two key ingredients: the prefix and the ordered update stream. -/
structure KeyParts where
  pre : String
  updates : List HashItem
deriving Repr, DecidableEq

/-- Models `FileStore.generateCacheKey` (part_005:121-151), up to the digest. -/
def generateCacheKeyParts (commands : List KCmd) (cfg : KConfig)
    (cmdName commandsHash : Option String) : KeyParts :=
  ⟨keyPre commands cmdName,
   tokItems commandsHash ++ (hashSigs commands).map .sig ++ cfgItems cfg⟩

/-- Models `FileStore.generateCacheKey`: `prefix + '_' + digest(updates)`, with the
digest abstracted as a parameter (see the section comment). -/
def generateCacheKey (digest : List HashItem → String) (commands : List KCmd)
    (cfg : KConfig) (cmdName commandsHash : Option String) : String :=
  (generateCacheKeyParts commands cfg cmdName commandsHash).pre ++ "_" ++
    digest (generateCacheKeyParts commands cfg cmdName commandsHash).updates

/-! ### The file-backed cache store (`src/cache.ts`, `src/utils.ts`)

The filesystem is a map from paths to byte contents; primitive operations
may fail according to an oracle `fails : WOp → Bool` (a failed operation
leaves the filesystem unchanged); each store function also reports the list
of primitive operations it attempted and whether it completed without an
uncaught error. -/

/-- File contents. -/
abbrev Bytes := List Nat

/-- A filesystem state for binary files. -/
abbrev FSb := String → Option Bytes

/-- A primitive filesystem operation. -/
inductive WOp where
  | write (path : String) (data : Bytes)
  | unlink (path : String)
  | rename (src dst : String)
  | mkdirp
deriving Repr, DecidableEq

/-- Point update of a filesystem state. -/
def fsSet (fs : FSb) (p : String) (v : Option Bytes) : FSb :=
  fun q => if q = p then v else fs q

/-- Result of a store write: final filesystem, attempted operations, and
whether the call completed without an uncaught error. -/
structure WriteRes where
  fs : FSb
  trace : List WOp
  ok : Bool

/-- Models `Cache.safeWrite` (src/cache.ts:59-70): write `path + '.tmp'`, unlink a
pre-existing target (errors swallowed), rename the temporary into place; on
failure unlink the temporary if it exists (errors swallowed) and rethrow. -/
def safeWrite (fails : WOp → Bool) (path : String) (data : Bytes) (fs : FSb) :
    WriteRes :=
  let tmp := path ++ ".tmp"
  let wop := WOp.write tmp data
  if fails wop then
    if (fs tmp).isSome then
      if fails (.unlink tmp) then ⟨fs, [wop, .unlink tmp], false⟩
      else ⟨fsSet fs tmp none, [wop, .unlink tmp], false⟩
    else ⟨fs, [wop], false⟩
  else
    let fs1 := fsSet fs tmp (some data)
    let step2 : FSb × List WOp :=
      if (fs1 path).isSome then
        if fails (.unlink path) then (fs1, [WOp.unlink path])
        else (fsSet fs1 path none, [WOp.unlink path])
      else (fs1, [])
    let fs2 := step2.1
    if fails (.rename tmp path) then
      if (fs2 tmp).isSome then
        if fails (.unlink tmp) then
          ⟨fs2, [wop] ++ step2.2 ++ [.rename tmp path, .unlink tmp], false⟩
        else
          ⟨fsSet fs2 tmp none, [wop] ++ step2.2 ++ [.rename tmp path, .unlink tmp], false⟩
      else ⟨fs2, [wop] ++ step2.2 ++ [.rename tmp path], false⟩
    else
      ⟨fsSet (fsSet fs2 path (fs2 tmp)) tmp none,
       [wop] ++ step2.2 ++ [.rename tmp path], true⟩

/-- Models `FileStore.saveCache` (src/utils.ts:135-139): `mkdir -p` on the cache
directory, then a direct `writeFile` to `<cacheDir>/<key>.png`. -/
def saveCacheFS (fails : WOp → Bool) (cacheDir key : String) (data : Bytes)
    (fs : FSb) : WriteRes :=
  let p := cacheDir ++ "/" ++ key ++ ".png"
  if fails .mkdirp then ⟨fs, [.mkdirp], false⟩
  else
    if fails (.write p data) then ⟨fs, [.mkdirp, .write p data], false⟩
    else ⟨fsSet fs p (some data), [.mkdirp, .write p data], true⟩

/-! ### Cache reads (`FileStore.getCache` / `load`, `Cache.readImageCache` /
`loadCommandsData`)

`readFails p` models an I/O error when reading an existing file `p`; every
read wraps its work so that all failures surface as `none` (a cache miss)
rather than as an exception — the models below are total by construction. -/

/-- A JSON value as far as the shape validation looks at it: an array, an
object whose `commands` property has the given truthiness, or any other
primitive. -/
inductive JVal where
  | arr (xs : List JVal)
  | objC (commandsTruthy : Bool)
  | prim
deriving Repr

/-- Stored file content on the JSON side: well-formed JSON or content on
which `JSON.parse` throws. -/
inductive JContent where
  | json (v : JVal)
  | garbage
deriving Repr

/-- A filesystem state for JSON files. -/
abbrev FSj := String → Option JContent

/-- Models `FileStore.makePath` (src/utils.ts:29-34); a falsy (empty) locale falls
back to `commands.json`. -/
def makePath (baseDir typ : String) (locale : Option String) : String :=
  baseDir ++ "/" ++
    (if typ = "commands" then
      match locale with
      | some l => if l = "" then "commands.json" else "commands-" ++ l ++ ".json"
      | none => "commands.json"
    else typ ++ ".json")

/-- Models `FileStore.load` (src/utils.ts:69-76): read and `JSON.parse`, any error
caught as `null`. -/
def loadFS (readFails : String → Bool) (baseDir typ : String)
    (locale : Option String) (fsj : FSj) : Option JVal :=
  let p := makePath baseDir typ locale
  match fsj p with
  | none => none
  | some c =>
    if readFails p then none
    else match c with
      | .json v => some v
      | .garbage => none

/-- Models `FileStore.getCache` (src/utils.ts:126-128): read
`<cacheDir>/<key>.png`, any error caught as `null`; a successful read is
returned as-is, with no length check. -/
def getCacheFS (readFails : String → Bool) (cacheDir key : String) (fs : FSb) :
    Option Bytes :=
  let p := cacheDir ++ "/" ++ key ++ ".png"
  match fs p with
  | none => none
  | some d => if readFails p then none else some d

/-- Models `Cache.readImageCache` (src/cache.ts:109-119): existing file, successful
read, non-empty payload; everything else is `null`. -/
def readImageCache (readFails : String → Bool) (p : String) (fs : FSb) :
    Option Bytes :=
  match fs p with
  | none => none
  | some d =>
    if readFails p then none
    else if d.length > 0 then some d else none

/-- The shape validation of `Cache.loadCommandsData` (src/cache.ts:99):
`Array.isArray(data) && data.length > 0 && data[0].commands`. -/
def commandsShapeOk : JVal → Bool
  | .arr (x :: _) => match x with | .objC b => b | _ => false
  | _ => false

/-- Models `Cache.loadCommandsData` (src/cache.ts:94-107): existing file, parseable
JSON, valid shape; everything else is `null` (errors logged, not raised). -/
def loadCommandsData (readFails : String → Bool) (dataPath : String)
    (fsj : FSj) : Option JVal :=
  match fsj dataPath with
  | none => none
  | some c =>
    if readFails dataPath then none
    else match c with
      | .json v => if commandsShapeOk v then some v else none
      | .garbage => none

/-! ### Supporting lemmas -/

@[simp] theorem NodeC.name_mk {nm hp vis cfg opts als us exs ch} :
    (NodeC.mk nm hp vis cfg opts als us exs ch).name = nm := rfl

@[simp] theorem NodeC.hasParent_mk {nm hp vis cfg opts als us exs ch} :
    (NodeC.mk nm hp vis cfg opts als us exs ch).hasParent = hp := rfl

@[simp] theorem NodeC.visible_mk {nm hp vis cfg opts als us exs ch} :
    (NodeC.mk nm hp vis cfg opts als us exs ch).visible = vis := rfl

@[simp] theorem NodeC.config_mk {nm hp vis cfg opts als us exs ch} :
    (NodeC.mk nm hp vis cfg opts als us exs ch).config = cfg := rfl

@[simp] theorem NodeC.opts_mk {nm hp vis cfg opts als us exs ch} :
    (NodeC.mk nm hp vis cfg opts als us exs ch).opts = opts := rfl

@[simp] theorem NodeC.aliases_mk {nm hp vis cfg opts als us exs ch} :
    (NodeC.mk nm hp vis cfg opts als us exs ch).aliases = als := rfl

@[simp] theorem NodeC.usageSrc_mk {nm hp vis cfg opts als us exs ch} :
    (NodeC.mk nm hp vis cfg opts als us exs ch).usageSrc = us := rfl

@[simp] theorem NodeC.examplesStatic_mk {nm hp vis cfg opts als us exs ch} :
    (NodeC.mk nm hp vis cfg opts als us exs ch).examplesStatic = exs := rfl

@[simp] theorem NodeC.children_mk {nm hp vis cfg opts als us exs ch} :
    (NodeC.mk nm hp vis cfg opts als us exs ch).children = ch := rfl

@[simp] theorem Command.cmdName_mk {g nm h a d u e o s} :
    (Command.mk g nm h a d u e o s).name = nm := rfl

@[simp] theorem Command.usage_mk {g nm h a d u e o s} :
    (Command.mk g nm h a d u e o s).usage = u := rfl

@[simp] theorem Command.subs_mk {g nm h a d u e o s} :
    (Command.mk g nm h a d u e o s).subs = s := rfl

/-- Structural form of `buildNode` on an arbitrary node. -/
theorem buildNode_eq (sess : Session) (reg : Reg) (n : NodeC) :
    buildNode sess reg n =
      (if sess.authority < (getEffectiveData reg n).config.authority.getD 0 then none
       else
        some (.mk
          (if (getEffectiveData reg n).config.group.getD "" = "" then "其它"
           else (getEffectiveData reg n).config.group.getD "")
          (processNameConfig reg n)
          ((getEffectiveData reg n).config.hidden.getD false)
          ((getEffectiveData reg n).config.authority.getD 0)
          (getEffectiveText ((getEffectiveData reg n).texts.map (·.entries)) "description" sess
            (cleanText (.str (sess.textOf ("commands." ++ n.name ++ ".description")))))
          (cleanText (.str (getUsageText n sess (getEffectiveData reg n).texts)))
          (getExamplesText n sess)
          (buildOptions (getEffectiveData reg n).options sess sess.authority n.name
            (getEffectiveData reg n).texts)
          (if (if n.children.isEmpty then [] else buildKids sess reg [] n.children).isEmpty
           then none
           else some (if n.children.isEmpty then [] else buildKids sess reg [] n.children)))) := by
  cases n
  rfl

/-- Structural form of `invokedNode` on an arbitrary node. -/
theorem invokedNode_eq (sess : Session) (reg : Reg) (n : NodeC) :
    invokedNode sess reg n =
      n :: (if sess.authority < (getEffectiveData reg n).config.authority.getD 0 then []
        else invokedKids sess reg [] n.children) := by
  cases n
  rfl

/-- Structural form of `reachAvoidName` on an arbitrary node. -/
theorem reachAvoidName_eq (cName dName : String) (n : NodeC) :
    reachAvoidName cName dName n =
      (if n.name = cName then false
       else (n.name = dName) || reachAvoidNameL cName dName n.children) := by
  cases n
  rfl

/-- Structural form of `subtreeNodes` on an arbitrary node. -/
theorem subtreeNodes_eq (n : NodeC) :
    subtreeNodes n = n :: subtreeNodesL n.children := by
  cases n
  rfl

/-- Structural form of `flattenCmd` on an arbitrary command. -/
theorem flattenCmd_eq (c : Command) :
    flattenCmd c = c :: (match c.subs with | none => [] | some l => flattenCmds l) := by
  cases c with
  | mk g nm h a d u e o s => cases s <;> rfl

theorem sizeN_pos (n : NodeC) : 0 < sizeN n := by
  cases n
  simp only [sizeN]
  omega

theorem sizeN_eq (n : NodeC) : sizeN n = 1 + sizeL n.children := by
  cases n
  rfl

theorem sizeN_le_sizeL {c : NodeC} :
    ∀ {l : List NodeC}, c ∈ l → sizeN c ≤ sizeL l := by
  intro l h
  induction l with
  | nil => cases h
  | cons a rest ih =>
    rcases List.mem_cons.mp h with rfl | h'
    · simp only [sizeL]; omega
    · have := ih h'
      simp only [sizeL]
      omega

theorem self_mem_subtreeNodes (n : NodeC) : n ∈ subtreeNodes n := by
  rw [subtreeNodes_eq]
  exact List.mem_cons_self _ _

theorem subtreeNodes_sub_of_mem {c : NodeC} :
    ∀ {l : List NodeC}, c ∈ l → ∀ {m : NodeC}, m ∈ subtreeNodes c → m ∈ subtreeNodesL l := by
  intro l
  induction l with
  | nil => intro h; cases h
  | cons a rest ih =>
    intro h m hm
    rcases List.mem_cons.mp h with rfl | h'
    · simp only [subtreeNodesL]
      exact List.mem_append_left _ hm
    · simp only [subtreeNodesL]
      exact List.mem_append_right _ (ih h' hm)

theorem subtree_child {n c : NodeC} (hc : c ∈ n.children) :
    ∀ {m : NodeC}, m ∈ subtreeNodes c → m ∈ subtreeNodes n := by
  intro m hm
  rw [subtreeNodes_eq]
  exact List.mem_cons_of_mem _ (subtreeNodes_sub_of_mem hc hm)

theorem reachAvoidNameL_of_mem {cN dN : String} {c : NodeC} :
    ∀ {l : List NodeC}, c ∈ l → reachAvoidName cN dN c = true →
      reachAvoidNameL cN dN l = true := by
  intro l
  induction l with
  | nil => intro h; cases h
  | cons a rest ih =>
    intro h hr
    rcases List.mem_cons.mp h with rfl | h'
    · simp only [reachAvoidNameL, hr, Bool.true_or]
    · simp only [reachAvoidNameL, ih h' hr, Bool.or_true]

theorem flattenCmds_eq_flatMap : ∀ l : List Command, flattenCmds l = l.flatMap flattenCmd := by
  intro l
  induction l with
  | nil => rfl
  | cons c cs ih => simp only [flattenCmds, List.flatMap_cons, ih]

/-- Every member of `invokedKids` comes from the invocation on some child
that survived the visibility and authority filters. -/
theorem invokedKids_mem_decomp (sess : Session) (reg : Reg) {m : NodeC} :
    ∀ (l : List NodeC) (seen : List String), m ∈ invokedKids sess reg seen l →
      ∃ c ∈ l, (c.visible = true ∧ sess.authority ≥ getAuthority reg c) ∧
        m ∈ invokedNode sess reg c := by
  intro l
  induction l with
  | nil => intro seen h; simp [invokedKids] at h
  | cons a rest ih =>
    intro seen h
    rw [invokedKids] at h
    by_cases hskip : a.name = "" ∨ a.name ∈ seen
    · rw [if_pos hskip] at h
      obtain ⟨c, hc, h2⟩ := ih seen h
      exact ⟨c, List.mem_cons_of_mem _ hc, h2⟩
    · rw [if_neg hskip] at h
      rcases List.mem_append.mp h with h1 | h2
      · by_cases hadm : a.visible = true ∧ sess.authority ≥ getAuthority reg a
        · rw [if_pos hadm] at h1
          exact ⟨a, List.mem_cons_self _ _, hadm, h1⟩
        · rw [if_neg hadm] at h1
          cases h1
      · obtain ⟨c, hc, h3⟩ := ih _ h2
        exact ⟨c, List.mem_cons_of_mem _ hc, h3⟩

/-- Strong-induction core of authority monotonicity: if every node named
`cName` in `n`'s subtree is above the caller's authority, then any invoked
node named `dName` forces either `n` itself to be named `cName` or a
`children`-path from `n` to a `dName`-named node avoiding `cName`-named
nodes. -/
theorem invoked_through_authority (sess : Session) (reg : Reg)
    (cName dName : String) :
    ∀ (k : Nat) (n : NodeC), sizeN n ≤ k →
      (∀ m ∈ subtreeNodes n, m.name = cName → sess.authority < getAuthority reg m) →
      ∀ m ∈ invokedNode sess reg n, m.name = dName →
        n.name = cName ∨ reachAvoidName cName dName n = true := by
  intro k
  induction k with
  | zero =>
    intro n hle
    exact absurd hle (by have := sizeN_pos n; omega)
  | succ k ih =>
    intro n hle hC m hm hd
    rw [invokedNode_eq] at hm
    rcases List.mem_cons.mp hm with rfl | hm'
    · by_cases hcn : m.name = cName
      · exact Or.inl hcn
      · right
        rw [reachAvoidName_eq, if_neg hcn, hd]
        simp
    · by_cases hlt : sess.authority < (getEffectiveData reg n).config.authority.getD 0
      · rw [if_pos hlt] at hm'
        cases hm'
      · rw [if_neg hlt] at hm'
        obtain ⟨c, hcmem, hadm, hminv⟩ := invokedKids_mem_decomp sess reg _ _ hm'
        have hsize : sizeN c ≤ k := by
          have h1 := sizeN_le_sizeL hcmem
          have h2 := sizeN_eq n
          omega
        have hCc : ∀ m' ∈ subtreeNodes c, m'.name = cName →
            sess.authority < getAuthority reg m' :=
          fun m' hm'' => hC m' (subtree_child hcmem hm'')
        rcases ih c hsize hCc m hminv hd with hcc | hreach
        · exact absurd (hC c (subtree_child hcmem (self_mem_subtreeNodes c)) hcc)
            (not_lt.mpr hadm.2)
        · by_cases hcn : n.name = cName
          · exact Or.inl hcn
          · right
            rw [reachAvoidName_eq, if_neg hcn,
              reachAvoidNameL_of_mem hcmem hreach]
            simp

/-- Every command of a flattened `buildKids` result is built from an
admissible child, whose invocations all belong to the kids invocation
list. -/
theorem buildKids_flatten_decomp (sess : Session) (reg : Reg) {c : Command} :
    ∀ (l : List NodeC) (seen : List String),
      c ∈ flattenCmds (buildKids sess reg seen l) →
      ∃ c0 ∈ l, (c0.visible = true ∧ sess.authority ≥ getAuthority reg c0) ∧
        (∃ cmd0, buildNode sess reg c0 = some cmd0 ∧ c ∈ flattenCmd cmd0) ∧
        (∀ x ∈ invokedNode sess reg c0, x ∈ invokedKids sess reg seen l) := by
  intro l
  induction l with
  | nil => intro seen h; simp [buildKids, flattenCmds] at h
  | cons a rest ih =>
    intro seen h
    rw [buildKids] at h
    by_cases hskip : a.name = "" ∨ a.name ∈ seen
    · rw [if_pos hskip] at h
      obtain ⟨c0, hc0, hrest⟩ := ih seen h
      refine ⟨c0, List.mem_cons_of_mem _ hc0, hrest.1, hrest.2.1, ?_⟩
      intro x hx
      rw [invokedKids, if_pos hskip]
      exact hrest.2.2 x hx
    · rw [if_neg hskip] at h
      by_cases hadm : a.visible = true ∧ sess.authority ≥ getAuthority reg a
      · rw [if_pos hadm] at h
        rcases hb : buildNode sess reg a with _ | cmd0
        · rw [hb] at h
          obtain ⟨c0, hc0, hx1, hx2, hx3⟩ := ih _ h
          refine ⟨c0, List.mem_cons_of_mem _ hc0, hx1, hx2, ?_⟩
          intro x hx
          rw [invokedKids, if_neg hskip]
          exact List.mem_append_right _ (hx3 x hx)
        · rw [hb] at h
          simp only [flattenCmds] at h
          rcases List.mem_append.mp h with h1 | h2
          · refine ⟨a, List.mem_cons_self _ _, hadm, ⟨cmd0, hb, h1⟩, ?_⟩
            intro x hx
            rw [invokedKids, if_neg hskip, if_pos hadm]
            exact List.mem_append_left _ hx
          · obtain ⟨c0, hc0, hx1, hx2, hx3⟩ := ih _ h2
            refine ⟨c0, List.mem_cons_of_mem _ hc0, hx1, hx2, ?_⟩
            intro x hx
            rw [invokedKids, if_neg hskip]
            exact List.mem_append_right _ (hx3 x hx)
      · rw [if_neg hadm] at h
        obtain ⟨c0, hc0, hx1, hx2, hx3⟩ := ih _ h
        refine ⟨c0, List.mem_cons_of_mem _ hc0, hx1, hx2, ?_⟩
        intro x hx
        rw [invokedKids, if_neg hskip]
        exact List.mem_append_right _ (hx3 x hx)

/-- Every command of a flattened built tree is the build of some invoked
node occurrence. -/
theorem flatten_build_from_invoked (sess : Session) (reg : Reg) :
    ∀ (k : Nat) (n : NodeC), sizeN n ≤ k →
      ∀ (cmd : Command), buildNode sess reg n = some cmd →
      ∀ c ∈ flattenCmd cmd,
        ∃ m ∈ invokedNode sess reg n, buildNode sess reg m = some c := by
  intro k
  induction k with
  | zero =>
    intro n hle
    exact absurd hle (by have := sizeN_pos n; omega)
  | succ k ih =>
    intro n hle cmd hb c hc
    have hb' := hb
    rw [buildNode_eq] at hb'
    by_cases hlt : sess.authority < (getEffectiveData reg n).config.authority.getD 0
    · rw [if_pos hlt] at hb'
      cases hb'
    · rw [if_neg hlt] at hb'
      have hcmd := Option.some.inj hb'
      rw [flattenCmd_eq] at hc
      rcases List.mem_cons.mp hc with rfl | hsub
      · exact ⟨n, by rw [invokedNode_eq]; exact List.mem_cons_self _ _, hb⟩
      · have hsubs :
            (match cmd.subs with | none => [] | some l => flattenCmds l) =
              flattenCmds (if n.children.isEmpty then [] else buildKids sess reg [] n.children) := by
          rw [← hcmd]
          simp only [Command.subs_mk]
          by_cases hempty :
              (if n.children.isEmpty then [] else buildKids sess reg [] n.children).isEmpty
          · rw [if_pos hempty]
            rcases hval : (if n.children.isEmpty then [] else buildKids sess reg [] n.children) with
              _ | ⟨x, xs⟩
            · rfl
            · rw [hval] at hempty; simp at hempty
          · rw [if_neg hempty]
        rw [hsubs] at hsub
        by_cases hch : n.children.isEmpty
        · rw [if_pos hch] at hsub
          simp [flattenCmds] at hsub
        · rw [if_neg hch] at hsub
          obtain ⟨c0, hc0, hadm, ⟨cmd0, hb0, hc0'⟩, hinv⟩ :=
            buildKids_flatten_decomp sess reg _ _ hsub
          have hsize : sizeN c0 ≤ k := by
            have h1 := sizeN_le_sizeL hc0
            have h2 := sizeN_eq n
            omega
          obtain ⟨m, hm, hbm⟩ := ih c0 hsize cmd0 hb0 c hc0'
          refine ⟨m, ?_, hbm⟩
          rw [invokedNode_eq, if_neg hlt]
          exact List.mem_cons_of_mem _ (hinv m hm)

/-- Every command of the flattened output of `all` is the build of some node
occurrence in the invocation set. -/
theorem output_from_invoked (sess : Session) (reg : Reg) (locale : String) :
    ∀ c ∈ flattenCmds (allCmds sess reg locale),
      ∃ m ∈ invokedAll sess reg locale,
        buildNode (sessLoc sess locale) reg m = some c := by
  intro c hc
  rw [allCmds, flattenCmds_eq_flatMap] at hc
  obtain ⟨a, ha, hca⟩ := List.mem_flatMap.mp hc
  have ha' := (List.perm_insertionSort cmdLe _).subset ha
  obtain ⟨r, hr, hbr⟩ := List.mem_filterMap.mp ha'
  obtain ⟨m, hm, hbm⟩ :=
    flatten_build_from_invoked (sessLoc sess locale) reg (sizeN r) r le_rfl a hbr c hca
  exact ⟨m, by rw [invokedAll]; exact List.mem_flatMap.mpr ⟨r, hr, hm⟩, hbm⟩

/-! ### Claim C2 -/

/-- C2: authority monotonicity. If every registry occurrence of the command
named `cName` requires more authority than the caller has, and every
`children`-path from a parentless root to a node named `dName` passes
through a node named `cName` (i.e. the `dName` command is `cName` itself or
one of its descendants), then no node named `dName` is ever invoked by the
tree builder — the authority check is re-applied at every level — and every
command in the output forest of `all` is built from an invoked node, so the
`dName` command and all its descendants are absent from `all`'s output even
when their own authority requirement is lower. -/
theorem c2_authority_monotonicity (sess : Session) (reg : Reg) (locale : String)
    (cName dName : String)
    (hC : ∀ m ∈ allRegNodes reg, m.name = cName →
      (sessLoc sess locale).authority < getAuthority reg m)
    (honly : ∀ r ∈ reg.commandList, r.hasParent = false →
      reachAvoidName cName dName r = false) :
    (∀ m ∈ invokedAll sess reg locale, m.name ≠ dName) ∧
    (∀ c ∈ flattenCmds (allCmds sess reg locale),
      ∃ m ∈ invokedAll sess reg locale,
        buildNode (sessLoc sess locale) reg m = some c) := by
  constructor
  · intro m hm hd
    rw [invokedAll] at hm
    obtain ⟨r, hr, hminv⟩ := List.mem_flatMap.mp hm
    have hrf := List.mem_filter.mp hr
    have hok := hrf.2
    rw [rootOkB] at hok
    simp only [Bool.and_eq_true, Bool.not_eq_true', decide_eq_true_eq] at hok
    have hrreg : ∀ m' ∈ subtreeNodes r, m' ∈ allRegNodes reg :=
      fun m' hm' => subtreeNodes_sub_of_mem hrf.1 hm'
    have hCr : ∀ m' ∈ subtreeNodes r, m'.name = cName →
        (sessLoc sess locale).authority < getAuthority reg m' :=
      fun m' hm' => hC m' (hrreg m' hm')
    rcases invoked_through_authority (sessLoc sess locale) reg cName dName
        (sizeN r) r le_rfl hCr m hminv hd with hrc | hreach
    · exact absurd (hC r (hrreg r (self_mem_subtreeNodes r)) hrc)
        (not_lt.mpr hok.2)
    · rw [honly r hrf.1 hok.1.1] at hreach
      cases hreach
  · exact output_from_invoked sess reg locale

def sessW2 : Session := ⟨1, [], fun _ => ""⟩

def nodeD2 : NodeC := .mk "d" true true {} [] [] none [] []

def nodeR2 : NodeC := .mk "r" false true { authority := some 2 } [] [] none [] [nodeD2]

def regW2 : Reg := ⟨[nodeR2], fun _ => none⟩

/-- Witness for C2: a caller of authority 1 against a root requiring
authority 2 whose child requires none — neither is invoked. -/
theorem c2_witness :
    (∀ m ∈ invokedAll sessW2 regW2 "", m.name ≠ "d") ∧
    (∀ c ∈ flattenCmds (allCmds sessW2 regW2 ""),
      ∃ m ∈ invokedAll sessW2 regW2 "",
        buildNode (sessLoc sessW2 "") regW2 m = some c) :=
  c2_authority_monotonicity sessW2 regW2 "" "r" "d" (by decide) (by decide)

/-! ### Claim C10 -/

/-- C10: every command the builder returns has a non-empty name list — with
an empty effective alias set `processNameConfig` emits the single entry
`{name: command.name, enabled: true, isDefault: true}` — so the `name[0]`
accesses in `all`'s root-level sort and in `related`'s parent deduplication
are always defined; this holds for every built node and for every command
anywhere in `all`'s output forest. -/
theorem c10_nonempty_names (sess : Session) (reg : Reg) (locale : String) (n : NodeC) :
    processNameConfig reg n ≠ [] ∧
    (∀ als : List (String × AliasConf), als.isEmpty = true →
      (getEffectiveData reg n).aliases = als →
      processNameConfig reg n = [⟨n.name, true, true⟩]) ∧
    (∀ c, buildNode sess reg n = some c → c.name ≠ []) ∧
    (∀ c ∈ flattenCmds (allCmds sess reg locale), c.name ≠ []) := by
  have hpnc : ∀ n' : NodeC, processNameConfig reg n' ≠ [] := by
    intro n'
    rw [processNameConfig]
    by_cases h : ((getEffectiveData reg n').aliases).isEmpty
    · rw [if_pos h]
      simp
    · rw [if_neg h]
      have hne : mkNameItems (getEffectiveData reg n').aliases false ≠ [] := by
        rcases hl : (getEffectiveData reg n').aliases with _ | ⟨a, rest⟩
        · rw [hl] at h; simp at h
        · cases a
          simp [mkNameItems]
      intro hsort
      have hlen := (List.perm_insertionSort niLe
        (mkNameItems (getEffectiveData reg n').aliases false)).length_eq
      rw [hsort] at hlen
      exact hne (List.length_eq_zero.mp hlen.symm)
  have hbuild : ∀ (s' : Session) (n' : NodeC) (c : Command),
      buildNode s' reg n' = some c → c.name ≠ [] := by
    intro s' n' c hb
    rw [buildNode_eq] at hb
    by_cases hlt : s'.authority < (getEffectiveData reg n').config.authority.getD 0
    · rw [if_pos hlt] at hb
      cases hb
    · rw [if_neg hlt] at hb
      have := Option.some.inj hb
      rw [← this, Command.cmdName_mk]
      exact hpnc n'
  refine ⟨hpnc n, ?_, fun c => hbuild sess n c, ?_⟩
  · intro als hals heq
    rw [processNameConfig, heq, if_pos hals]
  · intro c hc
    obtain ⟨m, _, hbm⟩ := output_from_invoked sess reg locale c hc
    exact hbuild _ m c hbm

def sess0 : Session := ⟨0, [], fun _ => ""⟩

def nodeS10 : NodeC := .mk "s" false true {} [] [] none [] []

def regW10 : Reg := ⟨[nodeS10], fun _ => none⟩

/-- The command built for `nodeS10`. -/
def cmdS10 : Command := .mk "其它" [⟨"s", true, true⟩] false 0 "" "" "" [] none

/-- Witness for C10 at a concrete one-command registry. -/
theorem c10_witness :
    processNameConfig regW10 nodeS10 ≠ [] ∧
    cmdS10.name ≠ [] ∧
    processNameConfig regW10 nodeS10 = [⟨"s", true, true⟩] :=
  ⟨(c10_nonempty_names sess0 regW10 "" nodeS10).1,
   (c10_nonempty_names sess0 regW10 "" nodeS10).2.2.2 cmdS10
     (by
       show cmdS10 ∈ flattenCmds (allCmds sess0 regW10 "")
       rw [show flattenCmds (allCmds sess0 regW10 "") = [cmdS10] from rfl]
       exact List.mem_singleton.mpr rfl),
   (c10_nonempty_names sess0 regW10 "" nodeS10).2.1 [] rfl rfl⟩

/-! ### Claim C3 -/

/-- A node whose custom usage producer throws at the ambient session. -/
def nodeWithThrowingUsage (nm : String) (hp vis : Bool) (cfg : CConfig)
    (opts : List (String × Option JOptP)) (als : List (String × AliasConf))
    (exs : List String) (ch : List NodeC) : NodeC :=
  .mk nm hp vis cfg opts als (some .fnErr) exs ch

/-- C3 (amended): a throwing custom usage producer does not fail its node.
The `try/catch` inside `getUsageText` absorbs the throw, the node is still
built — its usage falling back to the localized `commands.<name>.usage`
text (assuming no non-empty usage text override) — and it still contributes
its command to its parent's subcommand list, with sibling processing
continuing unchanged after it. -/
theorem c3_usage_producer_failure_isolated (sess : Session) (reg : Reg)
    (nm : String) (hp vis : Bool) (cfg : CConfig)
    (opts : List (String × Option JOptP)) (als : List (String × AliasConf))
    (exs : List String) (ch : List NodeC)
    (hov : getEffectiveText
      (((getEffectiveData reg (nodeWithThrowingUsage nm hp vis cfg opts als exs ch)).texts).map
        TextsObj.entries) "usage" sess "" = "")
    (hauth : ¬ sess.authority <
      (getEffectiveData reg
        (nodeWithThrowingUsage nm hp vis cfg opts als exs ch)).config.authority.getD 0) :
    ∃ c, buildNode sess reg (nodeWithThrowingUsage nm hp vis cfg opts als exs ch) = some c ∧
      c.usage = sess.textOf (usagePathOf nm) ∧
      (∀ (seen : List String) (rest : List NodeC), nm ≠ "" → nm ∉ seen → vis = true →
        sess.authority ≥ getAuthority reg (nodeWithThrowingUsage nm hp vis cfg opts als exs ch) →
        buildKids sess reg seen ((nodeWithThrowingUsage nm hp vis cfg opts als exs ch) :: rest) =
          c :: buildKids sess reg (nm :: seen) rest) := by
  have husage :
      getUsageText (nodeWithThrowingUsage nm hp vis cfg opts als exs ch) sess
        (getEffectiveData reg (nodeWithThrowingUsage nm hp vis cfg opts als exs ch)).texts =
        sess.textOf (usagePathOf nm) := by
    rw [getUsageText, hov]
    simp [nodeWithThrowingUsage]
  have hb := buildNode_eq sess reg (nodeWithThrowingUsage nm hp vis cfg opts als exs ch)
  rw [if_neg hauth] at hb
  refine ⟨_, hb, ?_, ?_⟩
  · rw [Command.usage_mk, husage]
    rfl
  · intro seen rest hnm hseen hvis hga
    rw [buildKids]
    have hname : (nodeWithThrowingUsage nm hp vis cfg opts als exs ch).name = nm := rfl
    rw [if_neg (by rw [hname]; exact not_or.mpr ⟨hnm, hseen⟩),
      if_pos ⟨by rw [nodeWithThrowingUsage]; simpa using hvis, hga⟩, hb, hname]

/-! ### Claim C7 -/

/-- C7 (amended): resolving effective data never throws when the snapshot
is missing — the node's static config, options and aliases are returned
unchanged with `texts = null` — nor when the snapshot carries both its
`initial` and `override` parts; but a snapshot lacking either part makes
`getEffectiveData` throw (`snapshot.initial.options` /
`snapshot.override.options` on a missing part). -/
theorem c7_override_resolution_throw_behaviour
    (snaps : String → Option RawSnapshot) (n : NodeC) :
    (snaps n.name = none →
      getEffectiveDataE snaps n = .ok ⟨n.config, n.opts, n.aliases, none⟩) ∧
    (∀ s ip op, snaps n.name = some s → s.initial = some ip → s.override = some op →
      getEffectiveDataE snaps n =
        .ok ⟨mergeCConfig (ip.config.getD {}) (op.config.getD {}),
          mergeOptions (ip.options.getD []) (op.options.getD []),
          op.aliases.getD n.aliases, op.texts⟩) ∧
    (∀ s, snaps n.name = some s → (s.initial = none ∨ s.override = none) →
      getEffectiveDataE snaps n = .error ()) := by
  refine ⟨?_, ?_, ?_⟩
  · intro h
    rw [getEffectiveDataE, h]
  · intro s ip op hs hi ho
    rw [getEffectiveDataE, hs]
    simp only [hi, ho]
  · intro s hs hmal
    rcases hmal with hi | ho
    · rw [getEffectiveDataE, hs]
      simp only [hi]
    · rcases hI : s.initial with _ | ip
      · rw [getEffectiveDataE, hs]
        simp only [hI]
      · rw [getEffectiveDataE, hs]
        simp only [hI, ho]

def nodeC7 : NodeC := .mk "cmd" false true {} [] [] none [] []

/-- A present but malformed snapshot: neither `initial` nor `override`. -/
def snapsBad : String → Option RawSnapshot := fun _ => some {}

/-- Counterexample to C7 as stated: a present snapshot lacking its
`initial`/`override` parts makes `getEffectiveData` throw
(`snapshot.initial.options` on `undefined`), contradicting "never
throws, even when the override snapshot is missing or malformed". -/
theorem c7_counterexample : getEffectiveDataE snapsBad nodeC7 = .error () := rfl

/-- Witness for C7: the missing-snapshot, well-formed, and malformed cases
at concrete stores. -/
theorem c7_witness :
    getEffectiveDataE (fun _ => none) nodeC7 =
      .ok ⟨nodeC7.config, nodeC7.opts, nodeC7.aliases, none⟩ ∧
    getEffectiveDataE (fun _ => some ⟨some {}, some {}⟩) nodeC7 =
      .ok ⟨mergeCConfig ({} : CConfig) {}, mergeOptions [] [],
        (none : Option (List (String × AliasConf))).getD nodeC7.aliases, none⟩ ∧
    getEffectiveDataE (fun _ => some ⟨some {}, none⟩) nodeC7 = .error () :=
  ⟨(c7_override_resolution_throw_behaviour (fun _ => none) nodeC7).1 rfl,
   (c7_override_resolution_throw_behaviour (fun _ => some ⟨some {}, some {}⟩) nodeC7).2.1
     ⟨some {}, some {}⟩ {} {} rfl rfl rfl,
   (c7_override_resolution_throw_behaviour (fun _ => some ⟨some {}, none⟩) nodeC7).2.2
     ⟨some {}, none⟩ rfl (Or.inr rfl)⟩

/-! ### Claim C8 -/

/-- C8 (amended): every cited cache read returns `null` on a missing file,
a read error, or unparseable content, and never raises (the read models are
total and all failures surface as `none`); `readImageCache` additionally
returns `null` on a zero-length payload and `loadCommandsData` on a
shape-invalid one; but `FileStore.getCache` performs no length check and
returns the raw — possibly empty — buffer whenever the read succeeds. -/
theorem c8_failed_reads_return_null
    (rf : String → Bool) (baseDir typ : String) (locale : Option String)
    (fsj : FSj) (cacheDir key p dataPath : String) (fs : FSb) :
    (fsj (makePath baseDir typ locale) = none →
      loadFS rf baseDir typ locale fsj = none) ∧
    (rf (makePath baseDir typ locale) = true →
      loadFS rf baseDir typ locale fsj = none) ∧
    (fsj (makePath baseDir typ locale) = some .garbage →
      loadFS rf baseDir typ locale fsj = none) ∧
    (fs (cacheDir ++ "/" ++ key ++ ".png") = none →
      getCacheFS rf cacheDir key fs = none) ∧
    (rf (cacheDir ++ "/" ++ key ++ ".png") = true →
      getCacheFS rf cacheDir key fs = none) ∧
    (∀ d, fs (cacheDir ++ "/" ++ key ++ ".png") = some d →
      rf (cacheDir ++ "/" ++ key ++ ".png") = false →
      getCacheFS rf cacheDir key fs = some d) ∧
    (fs p = none → readImageCache rf p fs = none) ∧
    (rf p = true → readImageCache rf p fs = none) ∧
    (∀ d, fs p = some d → d.length = 0 → readImageCache rf p fs = none) ∧
    (fsj dataPath = none → loadCommandsData rf dataPath fsj = none) ∧
    (fsj dataPath = some .garbage → loadCommandsData rf dataPath fsj = none) ∧
    (∀ v, fsj dataPath = some (.json v) → commandsShapeOk v = false →
      loadCommandsData rf dataPath fsj = none) := by
  refine ⟨?_, ?_, ?_, ?_, ?_, ?_, ?_, ?_, ?_, ?_, ?_, ?_⟩
  · intro h
    rw [loadFS]
    simp only [h]
  · intro h
    rw [loadFS]
    cases hc : fsj (makePath baseDir typ locale) with
    | none => rfl
    | some c => simp only [h, if_true]
  · intro h
    rw [loadFS]
    simp only [h]
    split <;> rfl
  · intro h
    rw [getCacheFS]
    simp only [h]
  · intro h
    rw [getCacheFS]
    cases hc : fs (cacheDir ++ "/" ++ key ++ ".png") with
    | none => rfl
    | some d => simp only [h, if_true]
  · intro d hd hr
    rw [getCacheFS]
    simp only [hd, hr]
    rfl
  · intro h
    rw [readImageCache, h]
  · intro h
    rw [readImageCache]
    cases hc : fs p with
    | none => rfl
    | some d => simp only [h, if_true]
  · intro d hd hlen
    rw [readImageCache, hd]
    simp [hlen]
  · intro h
    rw [loadCommandsData, h]
  · intro h
    rw [loadCommandsData]
    simp only [h]
    split <;> rfl
  · intro v hv hshape
    rw [loadCommandsData]
    simp only [hv]
    simp [hshape]

/-- A cache directory holding a zero-length `k.png`. -/
def fsEmptyPng : FSb := fun p => if p = "cd/k.png" then some [] else none

/-- Counterexample to C8 as stated: a zero-length binary payload read
through `FileStore.getCache` is returned as the empty buffer, not `null`
(the function has no length check). -/
theorem c8_counterexample :
    getCacheFS (fun _ => false) "cd" "k" fsEmptyPng = some [] := rfl

/-- Witness for C8 at concrete stores. -/
theorem c8_witness :
    loadFS (fun _ => false) "b" "commands" none (fun _ => none) = none ∧
    getCacheFS (fun _ => true) "cd" "k" (fun _ => some [1]) = none ∧
    readImageCache (fun _ => false) "p.png" (fun _ => some []) = none ∧
    loadCommandsData (fun _ => false) "d.json" (fun _ => some .garbage) = none :=
  ⟨(c8_failed_reads_return_null (fun _ => false) "b" "commands" none (fun _ => none)
      "cd" "k" "p.png" "d.json" (fun _ => none)).1 rfl,
   (c8_failed_reads_return_null (fun _ => true) "b" "commands" none (fun _ => none)
      "cd" "k" "p.png" "d.json" (fun _ => some [1])).2.2.2.2.1 rfl,
   (c8_failed_reads_return_null (fun _ => false) "b" "commands" none (fun _ => none)
      "cd" "k" "p.png" "d.json" (fun _ => some [])).2.2.2.2.2.2.2.2.1 [] rfl rfl,
   (c8_failed_reads_return_null (fun _ => false) "b" "commands" none
      (fun _ => some .garbage) "cd" "k" "p.png" "d.json" (fun _ => none)).2.2.2.2.2.2.2.2.2.2.1
     rfl⟩

/-! ### Claim C1 -/

theorem sigOf_name (c : KCmd) : (sigOf c).name = c.name := rfl

theorem dedupSigs_of_nodup :
    ∀ (l : List KCmd) (seen : List String),
      (∀ x ∈ l, x.name ∉ seen) → (l.map KCmd.name).Nodup →
      dedupSigs l seen = l.map sigOf := by
  intro l
  induction l with
  | nil => intro seen _ _; rfl
  | cons a rest ih =>
    intro seen hs hn
    rw [List.map_cons] at hn
    have hn' := List.nodup_cons.mp hn
    rw [dedupSigs, if_neg (hs a (List.mem_cons_self _ _)), List.map_cons]
    congr 1
    apply ih
    · intro x hx hmem
      rcases List.mem_cons.mp hmem with h | h
      · exact hn'.1 (h ▸ List.mem_map_of_mem KCmd.name hx)
      · exact hs x (List.mem_cons_of_mem _ hx) h
    · exact hn'.2

theorem dedupSigs_append_dup (c : KCmd) :
    ∀ (l : List KCmd) (seen : List String),
      (c.name ∈ seen ∨ ∃ x ∈ l, x.name = c.name) →
      dedupSigs (l ++ [c]) seen = dedupSigs l seen := by
  intro l
  induction l with
  | nil =>
    intro seen h
    rcases h with h | ⟨x, hx, _⟩
    · simp only [List.nil_append, dedupSigs, if_pos h]
    · cases hx
  | cons a rest ih =>
    intro seen h
    rw [List.cons_append, dedupSigs, dedupSigs]
    by_cases ha : a.name ∈ seen
    · rw [if_pos ha, if_pos ha]
      apply ih
      rcases h with h | ⟨x, hx, he⟩
      · exact Or.inl h
      · rcases List.mem_cons.mp hx with rfl | hx'
        · exact Or.inl (he ▸ ha)
        · exact Or.inr ⟨x, hx', he⟩
    · rw [if_neg ha, if_neg ha]
      congr 1
      apply ih
      rcases h with h | ⟨x, hx, he⟩
      · exact Or.inl (List.mem_cons_of_mem _ h)
      · rcases List.mem_cons.mp hx with rfl | hx'
        · exact Or.inl (he ▸ List.mem_cons_self _ _)
        · exact Or.inr ⟨x, hx', he⟩

/-- With pairwise-distinct names the sorted signature list is strictly
sorted by name. -/
theorem insertionSort_pairwise_lt (l : List KSig)
    (hn : (l.map KSig.name).Nodup) :
    (List.insertionSort ksLe l).Pairwise (fun a b : KSig => strLt a.name b.name = true) := by
  have hle : (List.insertionSort ksLe l).Pairwise ksLe := List.sorted_insertionSort ksLe l
  have hperm : (List.insertionSort ksLe l).Perm l := List.perm_insertionSort ksLe l
  have hn2 : ((List.insertionSort ksLe l).map KSig.name).Nodup :=
    ((hperm.map KSig.name).nodup_iff).mpr hn
  have hne : (List.insertionSort ksLe l).Pairwise (fun a b => a.name ≠ b.name) :=
    List.pairwise_map.mp hn2
  exact (hle.and hne).imp (fun h => strLt_of_le_of_ne h.1 h.2)

theorem hashSigs_perm_eq (cmds cmds' : List KCmd)
    (hp : cmds.Perm cmds') (hn : (cmds.map KCmd.name).Nodup) :
    hashSigs cmds = hashSigs cmds' := by
  have hn' : (cmds'.map KCmd.name).Nodup := ((hp.map KCmd.name).nodup_iff).mp hn
  have hcomp : KSig.name ∘ sigOf = KCmd.name := funext (fun c => rfl)
  have hnames1 : ((cmds.map sigOf).map KSig.name).Nodup := by
    rw [List.map_map, hcomp]
    exact hn
  have hnames2 : ((cmds'.map sigOf).map KSig.name).Nodup := by
    rw [List.map_map, hcomp]
    exact hn'
  rw [hashSigs, hashSigs, dedupSigs_of_nodup cmds [] (by simp) hn,
    dedupSigs_of_nodup cmds' [] (by simp) hn']
  have hperm : (cmds.map sigOf).Perm (cmds'.map sigOf) := hp.map _
  have h1 : (List.insertionSort ksLe (cmds.map sigOf)).Perm
      (List.insertionSort ksLe (cmds'.map sigOf)) :=
    (List.perm_insertionSort _ _).trans (hperm.trans (List.perm_insertionSort _ _).symm)
  haveI : IsAntisymm KSig (fun a b : KSig => strLt a.name b.name = true) :=
    ⟨fun a b ha hb => (strLt_asymm ha hb).elim⟩
  exact List.eq_of_perm_of_sorted h1 (insertionSort_pairwise_lt _ hnames1)
    (insertionSort_pairwise_lt _ hnames2)

theorem keyPre_perm (cmds cmds' : List KCmd) (hp : cmds.Perm cmds')
    (nm : Option String) : keyPre cmds nm = keyPre cmds' nm := by
  rw [keyPre, keyPre]
  by_cases h1 : (nm.map sanitizeName).getD "" ≠ ""
  · simp only [if_pos h1]
  · simp only [if_neg h1]
    rcases cmds with _ | ⟨c, _ | ⟨d, rest⟩⟩
    · have h2 : cmds' = [] := hp.symm.eq_nil
      rw [h2]
    · have h2 : cmds' = [c] := List.perm_singleton.mp hp.symm
      rw [h2]
    · rcases cmds' with _ | ⟨x, _ | ⟨y, rest'⟩⟩
      · exact absurd hp.length_eq (by simp)
      · exact absurd hp.length_eq (by simp)
      · rfl

theorem keyPre_append_dup (cmds : List KCmd) (c : KCmd) (nm : Option String)
    (h : (nm.map sanitizeName).getD "" ≠ "" ∨ cmds.length ≠ 1) (hc : c ∈ cmds) :
    keyPre (cmds ++ [c]) nm = keyPre cmds nm := by
  rw [keyPre, keyPre]
  by_cases h1 : (nm.map sanitizeName).getD "" ≠ ""
  · simp only [if_pos h1]
  · simp only [if_neg h1]
    have hlen : cmds.length ≠ 1 := h.resolve_left (fun hh => h1 hh)
    rcases cmds with _ | ⟨a, _ | ⟨b, rest⟩⟩
    · cases hc
    · simp at hlen
    · rfl

theorem cfgItems_congr (cfg cfg' : KConfig)
    (h : ∀ f ∈ whitelistFields, cfg f = cfg' f) :
    cfgItems cfg = cfgItems cfg' :=
  List.filterMap_congr (fun f hf => by rw [h f hf])

/-- C1 (amended): cache key determinism. For command lists with pairwise
distinct (display) names the key is invariant under permutation of the
list; appending a duplicate of an existing entry leaves the key unchanged
provided a non-empty scope name is supplied or the list's length is not
exactly 1 (for a singleton list without a scope name, duplication switches
the prefix from the command's sanitized name to `"menu"`); and two
configurations that agree on the eleven whitelisted render fields always
yield the same key — fields outside the whitelist never influence it. All
three statements hold for every digest function, the real key being the
prefix plus a digest of the update stream. -/
theorem c1_cache_key_determinism (digest : List HashItem → String)
    (cmds cmds' : List KCmd) (cfg cfg' : KConfig) (nm tok : Option String) :
    (cmds.Perm cmds' → (cmds.map KCmd.name).Nodup →
      generateCacheKey digest cmds cfg nm tok =
        generateCacheKey digest cmds' cfg nm tok) ∧
    (∀ c ∈ cmds, ((nm.map sanitizeName).getD "" ≠ "" ∨ cmds.length ≠ 1) →
      generateCacheKey digest (cmds ++ [c]) cfg nm tok =
        generateCacheKey digest cmds cfg nm tok) ∧
    ((∀ f ∈ whitelistFields, cfg f = cfg' f) →
      generateCacheKey digest cmds cfg nm tok =
        generateCacheKey digest cmds cfg' nm tok) := by
  refine ⟨?_, ?_, ?_⟩
  · intro hp hn
    rw [generateCacheKey, generateCacheKey, generateCacheKeyParts, generateCacheKeyParts,
      keyPre_perm cmds cmds' hp nm, hashSigs_perm_eq cmds cmds' hp hn]
  · intro c hc hpre
    have hsig : hashSigs (cmds ++ [c]) = hashSigs cmds := by
      rw [hashSigs, hashSigs, dedupSigs_append_dup c cmds [] (Or.inr ⟨c, hc, rfl⟩)]
    rw [generateCacheKey, generateCacheKey, generateCacheKeyParts, generateCacheKeyParts,
      keyPre_append_dup cmds c nm hpre hc, hsig]
  · intro hcfg
    rw [generateCacheKey, generateCacheKey, generateCacheKeyParts, generateCacheKeyParts,
      cfgItems_congr cfg cfg' hcfg]

def digest0 : List HashItem → String := fun _ => ""

def kCfg0 : KConfig := fun _ => none

def kA : KCmd := { name := "a" }

def kN1 : KCmd := { name := "n", desc := "d1" }

def kN2 : KCmd := { name := "n", desc := "d2" }

/-- Counterexample to C1 as stated: duplicating the only entry of a
singleton list changes the key — the prefix switches from the sanitized
command name (`a_…`) to `menu_…` — for every digest function (shown here
at a concrete one, the first characters already differing); moreover, for
two same-named but different commands, swapping them changes the md5
update stream (dedup keeps the first occurrence), so permutation
invariance also fails on lists with duplicate names. -/
theorem c1_counterexample :
    generateCacheKey digest0 [kA, kA] kCfg0 none none ≠
      generateCacheKey digest0 [kA] kCfg0 none none ∧
    generateCacheKeyParts [kN1, kN2] kCfg0 none none ≠
      generateCacheKeyParts [kN2, kN1] kCfg0 none none :=
  ⟨by decide, by decide⟩

def kB : KCmd := { name := "b" }

def kCfg1 : KConfig := fun f => if f = "padding" then some "1" else none

def kCfg2 : KConfig := fun f =>
  if f = "padding" then some "1" else if f = "zzz" then some "9" else none

/-- Witness for C1: permutation, duplication and off-whitelist-field
invariance at concrete inputs. -/
theorem c1_witness :
    generateCacheKey digest0 [kA, kB] kCfg1 none none =
      generateCacheKey digest0 [kB, kA] kCfg1 none none ∧
    generateCacheKey digest0 ([kA, kB] ++ [kA]) kCfg1 none none =
      generateCacheKey digest0 [kA, kB] kCfg1 none none ∧
    generateCacheKey digest0 [kA, kB] kCfg1 none none =
      generateCacheKey digest0 [kA, kB] kCfg2 none none :=
  ⟨(c1_cache_key_determinism digest0 [kA, kB] [kB, kA] kCfg1 kCfg1 none none).1
      (List.Perm.swap kB kA []) (by decide),
   (c1_cache_key_determinism digest0 [kA, kB] [kA, kB] kCfg1 kCfg1 none none).2.1 kA
      (by decide) (by decide),
   (c1_cache_key_determinism digest0 [kA, kB] [kA, kB] kCfg1 kCfg2 none none).2.2
      (by decide)⟩

/-! ### Claim C9 -/

/-- C9 (amended): a declared option with two named variants and no direct
`value` property (given sufficient caller authority and a non-empty
description or syntax for each variant) emits the two entries
`base.variant1` and `base.variant2` — and additionally a bare `base` entry
exactly when the option's own description or syntax is non-empty, because
`buildOptions` attempts the bare entry whenever the option has NO direct
`value` property (a `value` property is what suppresses it). -/
theorem c9_option_variant_expansion
    (sess : Session) (userAuth : Nat) (cmdName : String) (texts : Option TextsObj)
    (k : String) (opt : JOptP) (v1 v2 : String) (f1 f2 : OptFields)
    (hnv : opt.hasValue = false)
    (hvar : opt.variants = some [(v1, some f1), (v2, some f2)])
    (hb : optBase opt k ≠ "")
    (hn1 : optBase opt k ++ "." ++ v1 ≠ "")
    (hn2 : optBase opt k ++ "." ++ v2 ≠ "")
    (h1ne : optBase opt k ++ "." ++ v1 ≠ optBase opt k)
    (h2ne : optBase opt k ++ "." ++ v2 ≠ optBase opt k)
    (h12 : optBase opt k ++ "." ++ v2 ≠ optBase opt k ++ "." ++ v1)
    (ha0 : userAuth ≥ opt.fields.authority.getD 0)
    (ha1 : userAuth ≥ f1.authority.getD 0)
    (ha2 : userAuth ≥ f2.authority.getD 0)
    (hd1 : optDescOf sess cmdName texts f1 (optBase opt k ++ "." ++ v1) ≠ "" ∨
      f1.syntaxStr.getD "" ≠ "")
    (hd2 : optDescOf sess cmdName texts f2 (optBase opt k ++ "." ++ v2) ≠ "" ∨
      f2.syntaxStr.getD "" ≠ "") :
    (buildOptions [(k, some opt)] sess userAuth cmdName texts).map OptE.name =
      (if optDescOf sess cmdName texts opt.fields (optBase opt k) ≠ "" ∨
          opt.fields.syntaxStr.getD "" ≠ ""
       then [optBase opt k] else []) ++
      [optBase opt k ++ "." ++ v1, optBase opt k ++ "." ++ v2] := by
  have hg0 : ¬(optBase opt k = "" ∨ userAuth < opt.fields.authority.getD 0 ∨
      optBase opt k ∈ ([] : List String)) :=
    not_or.mpr ⟨hb, not_or.mpr ⟨not_lt.mpr ha0, List.not_mem_nil _⟩⟩
  rw [buildOptions]
  simp only [List.foldl_cons, List.foldl_nil, hvar, hnv, Bool.false_eq_true, if_false]
  by_cases hbare : optDescOf sess cmdName texts opt.fields (optBase opt k) ≠ "" ∨
      opt.fields.syntaxStr.getD "" ≠ ""
  · rw [if_pos hbare]
    have e0 : addOption sess userAuth cmdName texts ([], []) (some opt.fields)
        (optBase opt k) =
        ([⟨optBase opt k, optDescOf sess cmdName texts opt.fields (optBase opt k),
          opt.fields.syntaxStr.getD "", opt.fields.hidden.getD false,
          opt.fields.authority.getD 0⟩], [optBase opt k]) := by
      rw [addOption, if_neg hg0, if_pos hbare]
      simp
    rw [e0]
    have hg1 : ¬(optBase opt k ++ "." ++ v1 = "" ∨ userAuth < f1.authority.getD 0 ∨
        optBase opt k ++ "." ++ v1 ∈ [optBase opt k]) :=
      not_or.mpr ⟨hn1, not_or.mpr ⟨not_lt.mpr ha1,
        fun hmem => h1ne (List.mem_singleton.mp hmem)⟩⟩
    have e1 : addOption sess userAuth cmdName texts
        ([⟨optBase opt k, optDescOf sess cmdName texts opt.fields (optBase opt k),
          opt.fields.syntaxStr.getD "", opt.fields.hidden.getD false,
          opt.fields.authority.getD 0⟩], [optBase opt k]) (some f1)
        (optBase opt k ++ "." ++ v1) =
        ([⟨optBase opt k, optDescOf sess cmdName texts opt.fields (optBase opt k),
          opt.fields.syntaxStr.getD "", opt.fields.hidden.getD false,
          opt.fields.authority.getD 0⟩,
          ⟨optBase opt k ++ "." ++ v1,
            optDescOf sess cmdName texts f1 (optBase opt k ++ "." ++ v1),
            f1.syntaxStr.getD "", f1.hidden.getD false, f1.authority.getD 0⟩],
         [optBase opt k, optBase opt k ++ "." ++ v1]) := by
      rw [addOption, if_neg hg1, if_pos hd1]
      simp
    rw [e1]
    have hg2 : ¬(optBase opt k ++ "." ++ v2 = "" ∨ userAuth < f2.authority.getD 0 ∨
        optBase opt k ++ "." ++ v2 ∈ [optBase opt k, optBase opt k ++ "." ++ v1]) := by
      refine not_or.mpr ⟨hn2, not_or.mpr ⟨not_lt.mpr ha2, ?_⟩⟩
      intro hmem
      rcases List.mem_cons.mp hmem with h | h
      · exact h2ne h
      · exact h12 (List.mem_singleton.mp h)
    rw [addOption, if_neg hg2, if_pos hd2]
    simp
  · rw [if_neg hbare]
    have e0 : addOption sess userAuth cmdName texts ([], []) (some opt.fields)
        (optBase opt k) = ([], []) := by
      rw [addOption, if_neg hg0, if_neg hbare]
    rw [e0]
    have hg1 : ¬(optBase opt k ++ "." ++ v1 = "" ∨ userAuth < f1.authority.getD 0 ∨
        optBase opt k ++ "." ++ v1 ∈ ([] : List String)) :=
      not_or.mpr ⟨hn1, not_or.mpr ⟨not_lt.mpr ha1, List.not_mem_nil _⟩⟩
    have e1 : addOption sess userAuth cmdName texts ([], []) (some f1)
        (optBase opt k ++ "." ++ v1) =
        ([⟨optBase opt k ++ "." ++ v1,
            optDescOf sess cmdName texts f1 (optBase opt k ++ "." ++ v1),
            f1.syntaxStr.getD "", f1.hidden.getD false, f1.authority.getD 0⟩],
         [optBase opt k ++ "." ++ v1]) := by
      rw [addOption, if_neg hg1, if_pos hd1]
      simp
    rw [e1]
    have hg2 : ¬(optBase opt k ++ "." ++ v2 = "" ∨ userAuth < f2.authority.getD 0 ∨
        optBase opt k ++ "." ++ v2 ∈ [optBase opt k ++ "." ++ v1]) :=
      not_or.mpr ⟨hn2, not_or.mpr ⟨not_lt.mpr ha2,
        fun hmem => h12 (List.mem_singleton.mp hmem)⟩⟩
    rw [addOption, if_neg hg2, if_pos hd2]
    simp

def sessEmpty : Session := ⟨0, [], fun _ => ""⟩

/-- An option like `"format"` with variants `json`/`yaml`, no direct
`value` property, and a non-empty syntax of its own. -/
def fmtOpt : JOptP :=
  { fields := { syntaxStr := some "[value]" },
    variants := some [("json", some { syntaxStr := some "-j" }),
                      ("yaml", some { syntaxStr := some "-y" })] }

/-- Counterexample to C9 as stated: the option `"format"` with variants
`{json, yaml}` and no direct value — each variant having non-empty syntax,
with sufficient authority — emits a bare `"format"` entry in addition to
`"format.json"` and `"format.yaml"`: `'value' in opt` being false is what
makes `buildOptions` attempt the bare entry. -/
theorem c9_counterexample :
    (buildOptions [("format", some fmtOpt)] sessEmpty 0 "fmt" none).map OptE.name =
      ["format", "format.json", "format.yaml"] ∧
    "format" ∈ (buildOptions [("format", some fmtOpt)] sessEmpty 0 "fmt" none).map OptE.name :=
  ⟨rfl, by decide⟩

/-- Witness for C9 at the `fmtOpt` instance. -/
theorem c9_witness :
    (buildOptions [("format", some fmtOpt)] sessEmpty 0 "fmt" none).map OptE.name =
      (if optDescOf sessEmpty "fmt" none fmtOpt.fields (optBase fmtOpt "format") ≠ "" ∨
          fmtOpt.fields.syntaxStr.getD "" ≠ ""
       then [optBase fmtOpt "format"] else []) ++
      [optBase fmtOpt "format" ++ "." ++ "json", optBase fmtOpt "format" ++ "." ++ "yaml"] :=
  c9_option_variant_expansion sessEmpty 0 "fmt" none "format" fmtOpt "json" "yaml"
    { syntaxStr := some "-j" } { syntaxStr := some "-y" }
    rfl rfl (by decide) (by decide) (by decide) (by decide) (by decide) (by decide)
    (by decide) (by decide) (by decide) (by decide) (by decide)

/-! ### Claim C4 -/

@[simp] theorem fsSet_same (fs : FSb) (p : String) (v : Option Bytes) :
    fsSet fs p v p = v := by
  simp [fsSet]

theorem fsSet_other (fs : FSb) (p q : String) (v : Option Bytes) (h : q ≠ p) :
    fsSet fs p v q = fs q := by
  simp [fsSet, h]

theorem ne_append_tmp (p : String) : p ≠ p ++ ".tmp" := by
  intro h
  have h2 := congrArg String.length h
  rw [String.length_append] at h2
  have h4 : (".tmp" : String).length = 4 := rfl
  omega

/-- C4 (amended): `Cache.safeWrite` writes the data to a temporary sibling
file, removes any pre-existing target, then renames the temporary into
place, and on failure removes the temporary and propagates the error — but
the pre-existing target survives only when the failure happens at the
temporary-file write: when the rename step fails, the target has already
been unlinked and its content is lost. `FileStore.saveCache` (binary
artifacts) is not atomic at all: it writes directly to the final path,
attempting no unlink and no rename. -/
theorem c4_write_behaviour
    (fails : WOp → Bool) (path : String) (data : Bytes) (fs : FSb)
    (cacheDir key : String) (bdata : Bytes) (bfs : FSb) :
    (fails (.write (path ++ ".tmp") data) = true →
      (safeWrite fails path data fs).ok = false ∧
      (safeWrite fails path data fs).fs path = fs path) ∧
    (fails (.write (path ++ ".tmp") data) = false →
     fails (.unlink path) = false →
     fails (.rename (path ++ ".tmp") path) = false →
      (safeWrite fails path data fs).ok = true ∧
      (safeWrite fails path data fs).fs path = some data ∧
      (safeWrite fails path data fs).fs (path ++ ".tmp") = none) ∧
    (fails (.write (path ++ ".tmp") data) = false →
     fails (.unlink path) = false →
     fails (.rename (path ++ ".tmp") path) = true →
     fails (.unlink (path ++ ".tmp")) = false →
      (safeWrite fails path data fs).ok = false ∧
      (safeWrite fails path data fs).fs (path ++ ".tmp") = none ∧
      (safeWrite fails path data fs).fs path = none) ∧
    ((saveCacheFS fails cacheDir key bdata bfs).trace.all
      (fun op => match op with
        | .rename _ _ => false
        | .unlink _ => false
        | _ => true) = true) ∧
    (fails .mkdirp = false →
     fails (.write (cacheDir ++ "/" ++ key ++ ".png") bdata) = false →
      (saveCacheFS fails cacheDir key bdata bfs).ok = true ∧
      (saveCacheFS fails cacheDir key bdata bfs).fs (cacheDir ++ "/" ++ key ++ ".png") =
        some bdata) := by
  have hne := ne_append_tmp path
  refine ⟨?_, ?_, ?_, ?_, ?_⟩
  · intro hw
    rw [safeWrite]
    simp only [hw, if_true]
    by_cases ht : (fs (path ++ ".tmp")).isSome
    · rw [if_pos ht]
      by_cases hu : fails (.unlink (path ++ ".tmp"))
      · simp [hu]
      · simp [hu, fsSet_other _ _ _ _ hne]
    · rw [if_neg ht]
      exact ⟨rfl, rfl⟩
  · intro hw hu hr
    rw [safeWrite]
    simp only [hw, Bool.false_eq_true, if_false, hr]
    by_cases hp : (fsSet fs (path ++ ".tmp") (some data) path).isSome
    · simp only [if_pos hp, hu, Bool.false_eq_true, if_false]
      refine ⟨trivial, ?_, by simp⟩
      rw [fsSet_other _ _ _ _ hne, fsSet_same,
        fsSet_other _ _ _ _ (Ne.symm hne), fsSet_same]
    · simp only [if_neg hp]
      refine ⟨trivial, ?_, by simp⟩
      rw [fsSet_other _ _ _ _ hne, fsSet_same, fsSet_same]
  · intro hw hu hr hu2
    rw [safeWrite]
    simp only [hw, Bool.false_eq_true, if_false, hr, if_true]
    by_cases hp : (fsSet fs (path ++ ".tmp") (some data) path).isSome
    · simp only [if_pos hp, hu, Bool.false_eq_true, if_false]
      have htmp : (fsSet (fsSet fs (path ++ ".tmp") (some data)) path none
          (path ++ ".tmp")).isSome = true := by
        rw [fsSet_other _ _ _ _ (Ne.symm hne), fsSet_same]
        rfl
      simp only [htmp, if_true, hu2, Bool.false_eq_true, if_false]
      refine ⟨trivial, by simp, ?_⟩
      rw [fsSet_other _ _ _ _ hne, fsSet_same]
    · simp only [if_neg hp]
      have htmp : (fsSet fs (path ++ ".tmp") (some data) (path ++ ".tmp")).isSome = true := by
        simp
      simp only [htmp, if_true, hu2, Bool.false_eq_true, if_false]
      refine ⟨trivial, by simp, ?_⟩
      rw [fsSet_other _ _ _ _ hne]
      simpa using hp
  · rw [saveCacheFS]
    by_cases hm : fails .mkdirp
    · simp [hm]
    · by_cases hw : fails (.write (cacheDir ++ "/" ++ key ++ ".png") bdata)
      · simp [hm, hw]
      · simp [hm, hw]
  · intro hm hw
    rw [saveCacheFS]
    simp only [hm, Bool.false_eq_true, if_false, hw]
    exact ⟨by trivial, by simp⟩

/-- Only the rename step fails. -/
def failsRen : WOp → Bool := fun op => match op with | .rename _ _ => true | _ => false

/-- A cache holding `k.png` with the old content `[1]`. -/
def fsOld : FSb := fun p => if p = "k.png" then some [1] else none

/-- Counterexample to C4 as stated: when the rename step of
`Cache.safeWrite` fails, the error propagates and the temporary file is
removed, but the pre-existing target — unlinked before the rename — is NOT
left unchanged: it is gone. -/
theorem c4_counterexample :
    (safeWrite failsRen "k.png" [2, 3] fsOld).ok = false ∧
    fsOld "k.png" = some [1] ∧
    (safeWrite failsRen "k.png" [2, 3] fsOld).fs "k.png" = none :=
  ⟨rfl, rfl, rfl⟩

/-- Only the temporary-file write fails. -/
def failsWr : WOp → Bool := fun op => match op with | .write _ _ => true | _ => false

/-- Witness for C4 at concrete failure oracles. -/
theorem c4_witness :
    ((safeWrite failsWr "k.png" [2] fsOld).ok = false ∧
      (safeWrite failsWr "k.png" [2] fsOld).fs "k.png" = fsOld "k.png") ∧
    ((safeWrite (fun _ => false) "k.png" [2] fsOld).ok = true ∧
      (safeWrite (fun _ => false) "k.png" [2] fsOld).fs "k.png" = some [2] ∧
      (safeWrite (fun _ => false) "k.png" [2] fsOld).fs ("k.png" ++ ".tmp") = none) ∧
    ((safeWrite failsRen "k.png" [2] fsOld).ok = false ∧
      (safeWrite failsRen "k.png" [2] fsOld).fs ("k.png" ++ ".tmp") = none ∧
      (safeWrite failsRen "k.png" [2] fsOld).fs "k.png" = none) ∧
    ((saveCacheFS (fun _ => false) "cd" "k" [9] fsOld).trace.all
      (fun op => match op with
        | .rename _ _ => false
        | .unlink _ => false
        | _ => true) = true) ∧
    ((saveCacheFS (fun _ => false) "cd" "k" [9] fsOld).ok = true ∧
      (saveCacheFS (fun _ => false) "cd" "k" [9] fsOld).fs ("cd" ++ "/" ++ "k" ++ ".png") =
        some [9]) :=
  ⟨(c4_write_behaviour failsWr "k.png" [2] fsOld "cd" "k" [9] fsOld).1 rfl,
   (c4_write_behaviour (fun _ => false) "k.png" [2] fsOld "cd" "k" [9] fsOld).2.1 rfl rfl rfl,
   (c4_write_behaviour failsRen "k.png" [2] fsOld "cd" "k" [9] fsOld).2.2.1 rfl rfl rfl rfl,
   (c4_write_behaviour (fun _ => false) "k.png" [2] fsOld "cd" "k" [9] fsOld).2.2.2.1,
   (c4_write_behaviour (fun _ => false) "k.png" [2] fsOld "cd" "k" [9] fsOld).2.2.2.2 rfl rfl⟩

/-! ### Claims C5 and C6 -/

/-- C5 (amended): the `NameEntry` list of every built command is ordered
with the default entry (if any) first and lexicographically by name among
all remaining entries — the comparator does not consult the `enabled`
flag, so enabled and disabled entries are interleaved by name. -/
theorem c5_name_entry_ordering (reg : Reg) (n : NodeC) :
    List.Pairwise niLe (processNameConfig reg n) := by
  rw [processNameConfig]
  by_cases h : ((getEffectiveData reg n).aliases).isEmpty
  · rw [if_pos h]
    simp
  · rw [if_neg h]
    exact List.sorted_insertionSort niLe _

/-- The rank a spec-conforming ordering assigns to an entry: the default
first, then enabled entries, then disabled ones. -/
def specRank (it : NameItem) : Nat :=
  if it.isDefault then 0 else if it.enabled then 1 else 2

/-- The ordering invariant in the spec's words (§3 `NameEntry`:
"default-first, then enabled-before-disabled, then lexicographic"), as a
check on adjacent entries. -/
def specNameOrderB : List NameItem → Bool
  | [] => true
  | [_] => true
  | a :: b :: rest =>
    (specRank a < specRank b || (specRank a = specRank b && strLe a.name b.name)) &&
      specNameOrderB (b :: rest)

def regC5 : Reg := ⟨[], fun _ => none⟩

def nodeC5 : NodeC :=
  .mk "x" false true {} [] [("x", {}), ("a", ⟨true⟩), ("c", {})] none [] []

/-- Counterexample to C5 as stated: with aliases `x` (enabled, default),
`a` (disabled), `c` (enabled), the code produces `[x, a, c]` — the disabled
`a` sorts before the enabled `c` because the comparator ignores `enabled` —
violating the claimed enabled-before-disabled grouping. -/
theorem c5_counterexample :
    processNameConfig regC5 nodeC5 =
      [⟨"x", true, true⟩, ⟨"a", false, false⟩, ⟨"c", true, false⟩] ∧
    specNameOrderB (processNameConfig regC5 nodeC5) = false :=
  ⟨rfl, rfl⟩

theorem mkNameItems_no_default (l : List (String × AliasConf)) :
    ∀ it ∈ mkNameItems l true, it.isDefault = false := by
  induction l with
  | nil => intro it h; cases h
  | cons a rest ih =>
    intro it h
    obtain ⟨nm, cf⟩ := a
    simp only [mkNameItems, Bool.not_false, Bool.false_and, Bool.true_or] at h ⊢
    rcases List.mem_cons.mp h with rfl | h'
    · rfl
    · exact ih it (by simpa using h')

theorem mkNameItems_countP (l : List (String × AliasConf)) :
    (mkNameItems l false).countP (fun it => it.isDefault) ≤ 1 := by
  induction l with
  | nil => simp [mkNameItems]
  | cons a rest ih =>
    obtain ⟨nm, cf⟩ := a
    by_cases hen : cf.filterFalse
    · simp only [mkNameItems, hen, Bool.not_true, Bool.and_false, Bool.false_or]
      rw [List.countP_cons]
      simpa using ih
    · simp only [mkNameItems, Bool.not_eq_true', hen, Bool.not_false, Bool.and_true,
        Bool.true_and, Bool.false_or, Bool.not_true]
      rw [List.countP_cons]
      have hz : (mkNameItems rest true).countP (fun it => it.isDefault) = 0 := by
        rw [List.countP_eq_zero]
        intro it hit
        simpa using mkNameItems_no_default rest it hit
      simp [hz]

theorem mkNameItems_default_name (l : List (String × AliasConf)) :
    ∀ it ∈ mkNameItems l false, it.isDefault = true →
      ((l.find? (fun p => !p.2.filterFalse)).map (·.1) = some it.name ∧
        it.enabled = true) := by
  induction l with
  | nil => intro it h; cases h
  | cons a rest ih =>
    intro it hmem hdef
    obtain ⟨nm, cf⟩ := a
    by_cases hen : cf.filterFalse
    · simp only [mkNameItems, hen, Bool.not_true, Bool.and_false, Bool.false_or] at hmem
      rcases List.mem_cons.mp hmem with rfl | h'
      · simp at hdef
      · have := ih it h' hdef
        rw [List.find?_cons_of_neg _ (by simp [hen])]
        exact this
    · simp only [mkNameItems, Bool.not_eq_true', hen, Bool.not_false, Bool.and_true,
        Bool.true_and, Bool.false_or] at hmem
      rcases List.mem_cons.mp hmem with rfl | h'
      · refine ⟨?_, rfl⟩
        rw [List.find?_cons_of_pos _ (by simp [hen])]
        rfl
      · have := mkNameItems_no_default rest it (by simpa using h')
        rw [this] at hdef
        cases hdef

theorem mkNameItems_default_exists (l : List (String × AliasConf)) :
    (∃ p ∈ l, p.2.filterFalse = false) →
      ∃ it ∈ mkNameItems l false, it.isDefault = true := by
  induction l with
  | nil => rintro ⟨p, hp, _⟩; cases hp
  | cons a rest ih =>
    rintro ⟨p, hp, hpf⟩
    obtain ⟨nm, cf⟩ := a
    by_cases hen : cf.filterFalse
    · have hrest : ∃ q ∈ rest, q.2.filterFalse = false := by
        rcases List.mem_cons.mp hp with rfl | h'
        · rw [hen] at hpf; cases hpf
        · exact ⟨p, h', hpf⟩
      obtain ⟨it, hit, hd⟩ := ih hrest
      exact ⟨it, by
        simp only [mkNameItems, hen, Bool.not_true, Bool.and_false, Bool.false_or]
        exact List.mem_cons_of_mem _ hit, hd⟩
    · refine ⟨⟨nm, true, true⟩, ?_, rfl⟩
      simp only [mkNameItems, Bool.not_eq_true', hen, Bool.not_false, Bool.and_true,
        Bool.true_and, Bool.false_or]
      exact List.mem_cons_self _ _

/-- C6: default-name selection. For every command with alias entries, at
most one produced `NameItem` is marked default; every entry marked default
is the first alias, in declared order, whose `enabled` flag is true (so
when every alias is disabled nothing is marked default); and when some
alias is enabled, a default entry exists. -/
theorem c6_default_name_selection (reg : Reg) (n : NodeC)
    (hne : (getEffectiveData reg n).aliases ≠ []) :
    ((processNameConfig reg n).countP (fun it => it.isDefault) ≤ 1) ∧
    (∀ it ∈ processNameConfig reg n, it.isDefault = true →
      ((((getEffectiveData reg n).aliases.find? (fun p => !p.2.filterFalse)).map (·.1) =
        some it.name) ∧ it.enabled = true)) ∧
    ((∃ p ∈ (getEffectiveData reg n).aliases, p.2.filterFalse = false) →
      ∃ it ∈ processNameConfig reg n, it.isDefault = true) := by
  have hemp : ((getEffectiveData reg n).aliases).isEmpty = false := by
    rcases h : (getEffectiveData reg n).aliases with _ | ⟨a, rest⟩
    · exact absurd h hne
    · rfl
  have hperm : (processNameConfig reg n).Perm
      (mkNameItems (getEffectiveData reg n).aliases false) := by
    rw [processNameConfig, if_neg (by simp [hemp])]
    exact List.perm_insertionSort _ _
  refine ⟨?_, ?_, ?_⟩
  · rw [hperm.countP_eq]
    exact mkNameItems_countP _
  · intro it hit hdef
    exact mkNameItems_default_name _ it (hperm.subset hit) hdef
  · intro hex
    obtain ⟨it, hit, hd⟩ := mkNameItems_default_exists _ hex
    exact ⟨it, hperm.symm.subset hit, hd⟩

def nodeC6 : NodeC :=
  .mk "w" false true {} [] [("b", ⟨true⟩), ("a", {}), ("c", {})] none [] []

/-- Witness for C6 at the spec's own example `["b" disabled, "a" enabled,
"c" enabled]`: the produced entries carry exactly one default, named
`"a"`. -/
theorem c6_witness :
    ((processNameConfig regC5 nodeC6).countP (fun it => it.isDefault) ≤ 1) ∧
    (∀ it ∈ processNameConfig regC5 nodeC6, it.isDefault = true →
      ((((getEffectiveData regC5 nodeC6).aliases.find? (fun p => !p.2.filterFalse)).map (·.1) =
        some it.name) ∧ it.enabled = true)) ∧
    ((∃ p ∈ (getEffectiveData regC5 nodeC6).aliases, p.2.filterFalse = false) →
      ∃ it ∈ processNameConfig regC5 nodeC6, it.isDefault = true) :=
  c6_default_name_selection regC5 nodeC6 (by decide)

def sess3 : Session := ⟨0, [], fun p => if p = "commands.f.usage" then "FB" else ""⟩

def nodeF3 : NodeC := .mk "f" true true {} [] [] (some .fnErr) [] []

def nodeS3 : NodeC := .mk "s" true true {} [] [] none [] []

def nodeP3 : NodeC := .mk "p" false true {} [] [] none [] [nodeF3, nodeS3]

def reg3 : Reg := ⟨[nodeP3], fun _ => none⟩

/-- Counterexample to C3 as stated: the child `"f"`, whose custom usage
producer throws, is NOT excluded from its parent's `subs` — both `"f"` and
its sibling `"s"` appear, and `"f"` carries the locale fallback usage
`"FB"`, showing the throw was absorbed inside `getUsageText` rather than
failing the node. -/
theorem c3_counterexample :
    ((buildNode sess3 reg3 nodeP3).map (fun c =>
      ((c.subs.getD []).map headNameOf))).getD [] = ["f", "s"] ∧
    ((buildNode sess3 reg3 nodeP3).map (fun c =>
      ((c.subs.getD []).map Command.usage))).getD [] = ["FB", ""] :=
  ⟨rfl, rfl⟩

/-- Witness for C3 at the concrete registry of the counterexample. -/
theorem c3_witness :
    ∃ c, buildNode sess3 reg3 (nodeWithThrowingUsage "f" true true {} [] [] [] []) = some c ∧
      c.usage = sess3.textOf (usagePathOf "f") ∧
      (∀ (seen : List String) (rest : List NodeC), "f" ≠ "" → "f" ∉ seen → true = true →
        sess3.authority ≥ getAuthority reg3 (nodeWithThrowingUsage "f" true true {} [] [] [] []) →
        buildKids sess3 reg3 seen ((nodeWithThrowingUsage "f" true true {} [] [] [] []) :: rest) =
          c :: buildKids sess3 reg3 ("f" :: seen) rest) :=
  c3_usage_producer_failure_isolated sess3 reg3 "f" true true {} [] [] [] []
    rfl (by decide)

end Menu
